import Mathlib

/-!
# Verification of the GraphOfGrid partitioning wrappers

A shallow embedding of `opm/grid/GraphOfGridWrappers.hpp` together with a
model of the underlying `GraphOfGrid` container (contractable weighted
graph plus its well registry), against which the specified properties of
the wrapper callbacks, the well-addition algorithm and the
import/export-list expansion are proved.

Machine `int` is modelled by `Int`.  The `float` vertex and edge weights
are modelled by `Int`: every weight the program ever produces is a sum of
unit weights (cell counts and adjacency counts), and `float` addition on
such small integers is exact, so the embedding loses nothing while
keeping every definition kernel-computable.  `std::map<int,float>`
adjacency maps are
modelled by key-sorted association lists, `std::set<int>` by sorted
duplicate-free lists.  Functions that throw (`std::logic_error`,
`std::out_of_range`, failed `assert`) return `Option`/an explicit
`thrown` constructor.
-/

set_option autoImplicit false

namespace OpmVerify

/-! ## Sorted association lists (model of `std::map<int,float>`) -/

/-- Lookup in an association list: first entry with the given key
(model of `std::map::find` / `std::unordered_map::find`). -/
def mapFind? {β : Type} (m : List (Int × β)) (k : Int) : Option β :=
  match m with
  | [] => none
  | (k1, w1) :: rest => if k1 = k then some w1 else mapFind? rest k

/-- Insert a key into a key-sorted association list, adding the weight to
the existing entry when the key is already present (model of
`std::map::operator[] +=` as used when merging adjacencies). -/
def mapInsertAdd (m : List (Int × Int)) (k : Int) (w : Int) : List (Int × Int) :=
  match m with
  | [] => [(k, w)]
  | (k1, w1) :: rest =>
    if k = k1 then (k1, w1 + w) :: rest
    else if k < k1 then (k, w) :: (k1, w1) :: rest
    else (k1, w1) :: mapInsertAdd rest k w

/-- Remove a key from an association list (model of `erase` on
`std::map` / `std::unordered_map`). -/
def mapErase {β : Type} (m : List (Int × β)) (k : Int) : List (Int × β) :=
  match m with
  | [] => []
  | (k1, w1) :: rest => if k1 = k then rest else (k1, w1) :: mapErase rest k

/-- Assignment through `operator[]` of an (unordered) map: replace the
value when the key is present, append a new entry otherwise. -/
def mapStore {β : Type} (m : List (Int × β)) (k : Int) (v : β) : List (Int × β) :=
  match m with
  | [] => [(k, v)]
  | (k1, v1) :: rest => if k1 = k then (k1, v) :: rest else (k1, v1) :: mapStore rest k v

/-- Union of two adjacency maps, summing weights on shared keys. -/
def mapMergeAdd (m1 m2 : List (Int × Int)) : List (Int × Int) :=
  match m2 with
  | [] => m1
  | (k, w) :: rest => mapMergeAdd (mapInsertAdd m1 k w) rest

/-- Keys of an association list are strictly increasing
(the `std::map` ordering invariant). -/
def sortedKeys {β : Type} (m : List (Int × β)) : Prop :=
  m.Pairwise (fun p q => p.1 < q.1)

/-! ## Sorted duplicate-free lists (model of `std::set<int>`) -/

/-- Insert into a sorted duplicate-free list (model of `std::set::insert`). -/
def setInsert (x : Int) : List Int → List Int
  | [] => [x]
  | y :: ys => if x = y then y :: ys else if x < y then x :: y :: ys else y :: setInsert x ys

/-! ## The graph data model

Modelled from the spec: the `GraphOfGrid` class itself is not among the
given sources (only its wrappers and tests are), so the vertex container,
the well registry and the operations `size`, `numEdges`, `edgeList`,
`getVertex`, `contractVertices`, `addWell`, `getWells` are reconstructed
from the specification (sections 3, 4.1, 4.2) and the behaviour the tests
rely on. -/

/-- A graph vertex: weight, owning-process hint and the key-sorted
adjacency map `neighbour id -> edge weight`. -/
structure Vertex where
  weight : Int
  nproc : Int
  edges : List (Int × Int)
deriving Repr, DecidableEq

/-- The mesh data the wrappers read through `gog.getGrid()`:
total cartesian size and, per active (compressed) cell, its cartesian
index (`globalCell`). -/
structure GridModel where
  cartSize : Nat
  globalCell : List Nat
deriving Repr, DecidableEq

/-- Modelled from the spec: the contractable graph.  `vertices` is the
vertex container in its native iteration order, `wells` the registry of
wells (each one a sorted duplicate-free list of original cell ids), and
`grid` the underlying mesh handle. -/
structure GraphOfGrid where
  vertices : List (Int × Vertex)
  wells : List (List Int)
  grid : GridModel
deriving Repr, DecidableEq

namespace GraphOfGrid

/-- Modelled from the spec: `size()` — number of live vertices. -/
def size (g : GraphOfGrid) : Nat := g.vertices.length

/-- A vertex id is live when it is present in the vertex container. -/
def isLive (g : GraphOfGrid) (id1 : Int) : Prop :=
  id1 ∈ g.vertices.map Prod.fst

instance (g : GraphOfGrid) (id1 : Int) : Decidable (g.isLive id1) := by
  unfold isLive; infer_instance

/-- Lookup by id in the vertex container (first matching entry). -/
def findV (vs : List (Int × Vertex)) (id1 : Int) : Option Vertex :=
  match vs with
  | [] => none
  | (k, v) :: rest => if k = id1 then some v else findV rest id1

/-- Lookup of a vertex by id. -/
def findVertex (g : GraphOfGrid) (id1 : Int) : Option Vertex :=
  findV g.vertices id1

/-- Modelled from the spec: `getVertex(id)` fails (`std::logic_error`,
here `none`) if `id` is not live. -/
def getVertex (g : GraphOfGrid) (id1 : Int) : Option Vertex := g.findVertex id1

/-- Modelled from the spec: `numEdges(id)` — the number of edges of a
live vertex, failure sentinel `-1` otherwise (the sentinel the wrapper
`getGraphOfGridNumEdges` tests for). -/
def numEdges (g : GraphOfGrid) (id1 : Int) : Int :=
  match g.findVertex id1 with
  | some v => (v.edges.length : Int)
  | none => -1

/-- Modelled from the spec: `edgeList(id)` — the adjacency map of a live
vertex; throws (`none`) when `id` is not live. -/
def edgeList (g : GraphOfGrid) (id1 : Int) : Option (List (Int × Int)) :=
  (g.findVertex id1).map Vertex.edges

/-- Modelled from the spec: `getWells()` — the well registry. -/
def getWells (g : GraphOfGrid) : List (List Int) := g.wells

/-- Edge weight between `u` and `v`, read from `u`'s adjacency map
(`none` when there is no such edge or `u` is dead). -/
def edgeWeight (g : GraphOfGrid) (u v : Int) : Option Int :=
  (g.findVertex u).bind (fun vert => mapFind? vert.edges v)

/-- Total vertex weight of the graph (the conserved quantity). -/
def totalWeight (g : GraphOfGrid) : Int :=
  (g.vertices.map (fun p => p.2.weight)).sum

/-- Transfer a removed vertex id onto the representative inside one
adjacency map: an edge to `rmv` becomes an edge to `r`, weights summed
when an edge to `r` already exists. -/
def transferEdge (e : List (Int × Int)) (rmv r : Int) : List (Int × Int) :=
  match mapFind? e rmv with
  | none => e
  | some w => mapInsertAdd (mapErase e rmv) r w

/-- The per-entry effect of a contraction on the vertex container: the
removed id's entry disappears, the representative's entry receives the
merged vertex, every other vertex has its reference to the removed id
transferred onto the representative. -/
def contractEntry (r rmv : Int) (vr : Vertex) (p : Int × Vertex) : Option (Int × Vertex) :=
  if p.1 = rmv then none
  else if p.1 = r then some (r, vr)
  else some (p.1, { p.2 with edges := transferEdge p.2.edges rmv r })

/-- The graph after a contraction with representative `r`, removed id
`rmv` and merged representative vertex `vr`. -/
def contractedGraph (g : GraphOfGrid) (r rmv : Int) (vr : Vertex) : GraphOfGrid :=
  { g with vertices := g.vertices.filterMap (contractEntry r rmv vr) }

/-- Modelled from the spec: `contractVertices(a, b)` (section 3, merge
rule).  Defined only when `a ≠ b` and both are live (`none` otherwise).
The representative is `min a b`; it receives the summed weight, the
owner hint of the representative's own merge input, and the union of the
two adjacencies with shared-neighbour weights summed and the mutual edge
removed.  Every other vertex referencing the removed id now references
the representative, weights combined the same way. -/
def contractVertices (g : GraphOfGrid) (a b : Int) : Option GraphOfGrid :=
  if a = b then none else
  match g.findVertex a, g.findVertex b with
  | some va, some vb =>
    let r := min a b
    let rmv := max a b
    let vr : Vertex :=
      { weight := va.weight + vb.weight
        nproc := (if r = a then va else vb).nproc
        edges := mapErase (mapErase (mapMergeAdd va.edges vb.edges) a) b }
    some (contractedGraph g r rmv vr)
  | _, _ => none

/-- Apply a sequence of contractions in order; fails as soon as one of
them is undefined. -/
def applyContractions (g : GraphOfGrid) : List (Int × Int) → Option GraphOfGrid
  | [] => some g
  | p :: ps =>
    match g.contractVertices p.1 p.2 with
    | some g2 => applyContractions g2 ps
    | none => none

/-- Combine two optional prior edge weights the way a contraction does:
the sum when both edges existed, the single weight when only one did. -/
def combineW : Option Int → Option Int → Option Int
  | some x, some y => some (x + y)
  | some x, none => some x
  | none, some y => some y
  | none, none => none

/-- Container invariant: every vertex id occurs once. -/
def keysNodup (g : GraphOfGrid) : Prop := (g.vertices.map Prod.fst).Nodup

instance (g : GraphOfGrid) : Decidable (keysNodup g) := by
  unfold keysNodup; infer_instance

/-- Container invariant: every adjacency map is key-sorted. -/
def edgesSorted (g : GraphOfGrid) : Prop := ∀ p ∈ g.vertices, sortedKeys p.2.edges

instance (g : GraphOfGrid) : Decidable (edgesSorted g) := by
  unfold edgesSorted sortedKeys; infer_instance

/-- Modelled from the spec: the contraction loop of `addWell` (section
4.2 step 3): contract every other member into the representative (the
minimum, i.e. the head of the sorted member list); members that are no
longer live (already contracted into an existing well) are skipped. -/
def contractAll (g : GraphOfGrid) (cells : List Int) : GraphOfGrid :=
  match cells with
  | [] => g
  | rep :: rest => rest.foldl (fun gacc m =>
      match contractVertices gacc rep m with
      | some g2 => g2
      | none => gacc) g

/-- Does a well share a cell id with the given set? -/
def wellIntersects (w cellIds : List Int) : Bool :=
  w.any (fun c => cellIds.contains c)

/-- Modelled from the spec: `addWell(cellIds, checkIntersections)`
(section 4.2).  With the check on, overlapping wells are unioned into
`cellIds` and removed from the registry; a merged set with fewer than two
members is not recorded; otherwise its members are contracted into one
vertex and the merged set is recorded as one well.  With the check off,
`cellIds` is contracted and recorded as given. -/
def addWell (g : GraphOfGrid) (cellIds : List Int) (check : Bool) : GraphOfGrid :=
  if check then
    let overlapping := g.wells.filter (fun w => wellIntersects w cellIds)
    let remaining := g.wells.filter (fun w => !wellIntersects w cellIds)
    let merged := overlapping.flatten.foldl (fun s x => setInsert x s) cellIds
    if merged.length < 2 then g
    else { contractAll g merged with wells := remaining ++ [merged] }
  else
    if cellIds.length < 2 then g
    else { contractAll g cellIds with wells := g.wells ++ [cellIds] }

end GraphOfGrid

/-! ## Partitioner adapter callbacks (`GraphOfGridWrappers.hpp`) -/

/-- Zoltan status code: `ZOLTAN_OK` / `ZOLTAN_FATAL`. -/
inductive ZStatus where
  | OK
  | FATAL
deriving Repr, DecidableEq

open GraphOfGrid

/-- `getGraphOfGridNumVertices`: returns `gog.size()` and sets `*err = ZOLTAN_OK`. -/
def getGraphOfGridNumVertices (g : GraphOfGrid) : Nat × ZStatus :=
  (g.size, ZStatus.OK)

/-- The write loop of `getGraphOfGridVerticesList`: for each vertex in the
graph's native iteration order, write its id into `gbuf` and its weight
into `wbuf` at the running index `i` (buffer cells past the written
prefix keep their previous contents). -/
def writeVerts : List (Int × Vertex) → List Int → List Int → Nat → List Int × List Int
  | [], gbuf, wbuf, _ => (gbuf, wbuf)
  | (id1, v) :: rest, gbuf, wbuf, i =>
    writeVerts rest (gbuf.set i id1) (wbuf.set i v.weight) (i + 1)

/-- `getGraphOfGridVerticesList`: fills the caller-provided buffers
`gIDs` and `objWeights` with one entry per live vertex; the local-id
buffer `lIDs` is left unused; sets the status to OK.  The returned
quadruple is the final contents of the three buffers plus the status. -/
def getGraphOfGridVerticesList (g : GraphOfGrid) (gIDs lIDs : List Int)
    (objWeights : List Int) : List Int × List Int × List Int × ZStatus :=
  let w := writeVerts g.vertices gIDs objWeights 0
  (w.1, lIDs, w.2, ZStatus.OK)

/-- `getGraphOfGridNumEdges`: for each requested id ask `gog.numEdges`;
on the sentinel `-1` log the offending id, set FATAL and return at once
(no entry written for that id or any later one).  Returns the status, the
consecutively filled prefix of the `numEdges` output buffer and the id
named by the diagnostic, if any. -/
def getGraphOfGridNumEdges (g : GraphOfGrid) : List Int → ZStatus × List Int × Option Int
  | [] => (ZStatus.OK, [], none)
  | id1 :: rest =>
    let nE := g.numEdges id1
    if nE = -1 then (ZStatus.FATAL, [], some id1)
    else
      let t := getGraphOfGridNumEdges g rest
      (t.1, nE :: t.2.1, t.2.2)

/-- Diagnostic emitted by `getGraphOfGridEdgeList` on a count mismatch:
the expected (Zoltan-side) count, the actual (graph-side) count and the
offending vertex id. -/
structure EdgeMismatch where
  vertexId : Int
  zoltanCount : Int
  graphCount : Nat
deriving Repr, DecidableEq

/-- Result of `getGraphOfGridEdgeList`: either a thrown `std::logic_error`
(a requested id or a neighbour id was not live, so `edgeList`/`getVertex`
threw), or a status together with the consecutively emitted
`(neighbour id, neighbour process, edge weight)` entries and the
diagnostic, if any. -/
inductive EdgeListResult where
  | thrown
  | result (err : ZStatus) (emitted : List (Int × Int × Int)) (diag : Option EdgeMismatch)
deriving Repr, DecidableEq

/-- The inner loop of `getGraphOfGridEdgeList`: emit one output entry per
edge, the neighbour's process looked up with `gog.getVertex` (which
throws — `none` — when the neighbour is not live). -/
def emitEdges (g : GraphOfGrid) (es : List (Int × Int)) : Option (List (Int × Int × Int)) :=
  es.mapM (fun e => (g.getVertex e.1).map (fun nv => (e.1, nv.nproc, e.2)))

/-- `getGraphOfGridEdgeList`: per requested `(id, expectedCount)` pair,
fetch `gog.edgeList(id)` (throws when `id` is dead), compare its size
with the expected count — on mismatch log the two counts and the id, set
FATAL and return without emitting entries for this or any later id —
and otherwise emit the neighbour entries consecutively; OK when the whole
batch matched. -/
def getGraphOfGridEdgeList (g : GraphOfGrid) : List (Int × Int) → EdgeListResult
  | [] => EdgeListResult.result ZStatus.OK [] none
  | (id1, expected) :: rest =>
    match g.edgeList id1 with
    | none => EdgeListResult.thrown
    | some eList =>
      if (eList.length : Int) ≠ expected then
        EdgeListResult.result ZStatus.FATAL []
          (some { vertexId := id1, zoltanCount := expected, graphCount := eList.length })
      else
        match emitEdges g eList with
        | none => EdgeListResult.thrown
        | some mine =>
          match getGraphOfGridEdgeList g rest with
          | EdgeListResult.thrown => EdgeListResult.thrown
          | EdgeListResult.result st em d => EdgeListResult.result st (mine ++ em) d

/-- The owner process a neighbour entry is filled with (defined when the
neighbour is live; the dead case never occurs in a well-formed graph). -/
def nprocOf (g : GraphOfGrid) (id1 : Int) : Int :=
  match g.getVertex id1 with
  | some v => v.nproc
  | none => 0

/-- The block of output entries `getGraphOfGridEdgeList` emits for one
requested live id: one `(neighbour, neighbour process, weight)` triple
per edge, in adjacency-map order. -/
def emittedFor (g : GraphOfGrid) (id1 : Int) : List (Int × Int × Int) :=
  match g.edgeList id1 with
  | some es => es.map (fun e => (e.1, nprocOf g e.1, e.2))
  | none => []

/-! ## Well construction from cartesian coordinates -/

/-- The `cartesian_to_compressed` build loop of
`addFutureConnectionWells`: starting from a buffer full of `-1`, write
compressed index `i` at position `globalCell()[i]` for every active cell. -/
def buildC2C : List Nat → Int → List Int → List Int
  | [], _, acc => acc
  | c :: rest, i, acc => buildC2C rest (i + 1) (acc.set c i)

/-- `cartesian_to_compressed.at(cell)`: bounds-checked access, `none`
models the thrown `std::out_of_range`. -/
def c2cAt (c2c : List Int) (cell : Nat) : Option Int :=
  if cell < c2c.length then some (c2c.getD cell (-1)) else none

/-- Translate one well's cartesian cells through the lookup table;
`none` models either the `.at` throw (cell out of the cartesian range)
or the failed `assert(gID != -1)` (cell not active). -/
def translateWell (c2c : List Int) (w : List Nat) : Option (List Int) :=
  match w with
  | [] => some []
  | cell :: rest => do
    let gID ← c2cAt c2c cell
    if gID = -1 then none
    else
      let others ← translateWell c2c rest
      some (setInsert gID others)

/-- `addFutureConnectionWells`: build the cartesian-to-compressed lookup
from the graph's grid, translate every well and forward it to
`gog.addWell`; `none` models the fatal outcome (assertion or
out-of-range) reached as soon as any well references an inactive cell. -/
def addFutureConnectionWells (g : GraphOfGrid) (wells : List (List Nat))
    (check : Bool) : Option GraphOfGrid :=
  let c2c := buildC2C g.grid.globalCell 0 (List.replicate g.grid.cartSize (-1))
  wells.foldlM (fun gacc w => do
    let ids ← translateWell c2c w
    pure (gacc.addWell ids check)) g

/-! ## Import/export list expansion (`extendImportExportList`)

The tuples are modelled as `Int × α`: the first component is the
`globalId`, the second collapses the remaining fields (local id,
attribute, possibly source rank); `α` carries a linear order so that the
C++ `std::tuple` lexicographic `operator<` is expressible. -/

section ListExpander

variable {α : Type} [LinearOrder α]

/-- The `std::tuple` lexicographic `operator<` on `(globalId, rest)`
pairs, as used by `std::inplace_merge`. -/
def tupLT (p q : Int × α) : Bool :=
  decide (p.1 < q.1) || (decide (p.1 = q.1) && decide (p.2 < q.2))

/-- `std::inplace_merge` on the two consecutive sorted ranges: the stable
merge, taking from the first range unless the second range's head is
strictly smaller. -/
def mergeLists : List (Int × α) → List (Int × α) → List (Int × α)
  | [], ys => ys
  | x :: xs, [] => x :: xs
  | x :: xs, y :: ys =>
    if tupLT y x then y :: mergeLists (x :: xs) ys
    else x :: mergeLists xs (y :: ys)
termination_by xs ys => xs.length + ys.length

/-- Ordering of the `std::sort` call on `addToList`: by `globalId` only. -/
def leGid (p q : Int × α) : Prop := p.1 ≤ q.1

instance : DecidableRel (@leGid α) :=
  fun p q => inferInstanceAs (Decidable (p.1 ≤ q.1))

instance : IsTotal (Int × α) leGid := ⟨fun a b => le_total a.1 b.1⟩

instance : IsTrans (Int × α) leGid := ⟨fun _ _ _ h1 h2 => le_trans h1 h2⟩

/-- The well lookup built at the top of `extendImportExportList`:
one entry per well, keyed by the well's first (minimal) member, the value
being the well itself; `operator[]` assignment semantics. -/
def buildWellMap (wells : List (List Int)) : List (Int × List Int) :=
  wells.foldl (fun m w => mapStore m w.headI w) []

/-- The expansion loop of `extendImportExportList`: for each tuple whose
`globalId` is a key of the well map, emit one copy of the tuple per other
well member (the member id replacing the `globalId`), erase the well from
the map, and stop early once the map is empty.  Returns `addToList`. -/
def expandLoop : List (Int × List Int) → List (Int × α) → List (Int × α)
  | _, [] => []
  | wm, t :: rest =>
    match mapFind? wm t.1 with
    | some well =>
      let adds := (well.filter (fun m => m != t.1)).map (fun m => (m, t.2))
      let wm2 := mapErase wm t.1
      if wm2.isEmpty then adds else adds ++ expandLoop wm2 rest
    | none => if wm.isEmpty then [] else expandLoop wm rest

/-- The number of tuples the expansion loop generates: one per non-key
member of every well-map entry whose key occurs among the processed
`globalId`s. -/
def sumContrib (wm : List (Int × List Int)) (gids : List Int) : Nat :=
  ((wm.filter (fun p => gids.contains p.1)).map
    (fun p => (p.2.filter (fun m => m != p.1)).length)).sum

/-- `extendImportExportList`: build the well map from `gog.getWells()`,
collect the omitted well-member tuples, sort them by `globalId` and merge
them into the original list. -/
def extendImportExportList (g : GraphOfGrid) (cellList : List (Int × α)) :
    List (Int × α) :=
  let addToList := List.insertionSort leGid (expandLoop (buildWellMap g.getWells) cellList)
  mergeLists cellList addToList

end ListExpander

/-! ## Sequences of partitioner callbacks (frame property) -/

/-- One invocation of one of the four partitioner callbacks, with its
caller-provided inputs. -/
inductive ZCall where
  | numVertices
  | verticesList (gIDs lIDs : List Int) (objWeights : List Int)
  | numEdgesBatch (gIDs : List Int)
  | edgeListBatch (query : List (Int × Int))
deriving Repr, DecidableEq

/-- The output of one callback invocation. -/
inductive ZOut where
  | numV (n : Nat) (err : ZStatus)
  | vList (gIDs lIDs : List Int) (objWeights : List Int) (err : ZStatus)
  | eCounts (err : ZStatus) (filled : List Int) (diag : Option Int)
  | eList (r : EdgeListResult)
deriving Repr, DecidableEq

/-- Execute one callback against the graph, returning the graph the next
call operates on together with the produced output.  All four callbacks
take the graph by `const` reference, which the embedding renders as
passing the input graph through unchanged. -/
def zStep (g : GraphOfGrid) : ZCall → GraphOfGrid × ZOut
  | ZCall.numVertices =>
    let r := getGraphOfGridNumVertices g
    (g, ZOut.numV r.1 r.2)
  | ZCall.verticesList gIDs lIDs objWeights =>
    let r := getGraphOfGridVerticesList g gIDs lIDs objWeights
    (g, ZOut.vList r.1 r.2.1 r.2.2.1 r.2.2.2)
  | ZCall.numEdgesBatch gIDs =>
    let r := getGraphOfGridNumEdges g gIDs
    (g, ZOut.eCounts r.1 r.2.1 r.2.2)
  | ZCall.edgeListBatch query =>
    (g, ZOut.eList (getGraphOfGridEdgeList g query))

/-- Run a sequence of callback invocations, collecting their outputs. -/
def runCalls (g : GraphOfGrid) : List ZCall → GraphOfGrid × List ZOut
  | [] => (g, [])
  | c :: cs =>
    let s := zStep g c
    let t := runCalls s.1 cs
    (t.1, s.2 :: t.2)

/-! ## Small concrete instances used to exercise the theorems -/

/-- A three-vertex triangle graph with unit weights. -/
def demoGraph : GraphOfGrid :=
  { vertices := [
      (0, { weight := 1, nproc := 0, edges := [(1, 1), (2, 1)] }),
      (1, { weight := 1, nproc := 0, edges := [(0, 1), (2, 1)] }),
      (2, { weight := 1, nproc := 0, edges := [(0, 1), (1, 1)] })],
    wells := [],
    grid := { cartSize := 4, globalCell := [0, 1, 2] } }

/-- A graph carrying only a well registry, to exercise the list
expansion and well bookkeeping. -/
def demoWellGraph : GraphOfGrid :=
  { vertices := [],
    wells := [[0, 1, 2], [5, 8, 11]],
    grid := { cartSize := 0, globalCell := [] } }

/-! ## Lemmas about the association-map helpers -/

theorem mem_of_mapFind?_eq_some {β : Type} {m : List (Int × β)} {k : Int} {v : β}
    (h : mapFind? m k = some v) : k ∈ m.map Prod.fst := by
  induction m with
  | nil => simp [mapFind?] at h
  | cons q tl ih =>
    simp only [mapFind?] at h
    by_cases hq : q.1 = k
    · simp [hq]
    · simp only [if_neg hq] at h
      simp [ih h]

theorem mapFind?_insertAdd_other {m : List (Int × Int)} {k k1 : Int} (w : Int)
    (h : k1 ≠ k) : mapFind? (mapInsertAdd m k w) k1 = mapFind? m k1 := by
  induction m with
  | nil => simp [mapInsertAdd, mapFind?, Ne.symm h]
  | cons p rest ih =>
    obtain ⟨kp, wp⟩ := p
    by_cases hk : k = kp
    · subst hk
      simp [mapInsertAdd, mapFind?, Ne.symm h]
    · by_cases hlt : k < kp
      · simp [mapInsertAdd, hk, hlt, mapFind?, Ne.symm h]
      · simp only [mapInsertAdd, if_neg hk, if_neg hlt, mapFind?]
        by_cases hp : kp = k1
        · simp [hp]
        · simp [hp, ih]

theorem mapFind?_insertAdd_self_of_none {m : List (Int × Int)} {k : Int} (w : Int)
    (h : mapFind? m k = none) : mapFind? (mapInsertAdd m k w) k = some w := by
  induction m with
  | nil => simp [mapInsertAdd, mapFind?]
  | cons p rest ih =>
    obtain ⟨kp, wp⟩ := p
    simp only [mapFind?] at h
    by_cases hk : kp = k
    · simp [hk] at h
    · simp only [if_neg hk] at h
      by_cases hk2 : k = kp
      · exact absurd hk2.symm hk
      · by_cases hlt : k < kp
        · simp [mapInsertAdd, hk2, hlt, mapFind?]
        · simp [mapInsertAdd, hk2, hlt, mapFind?, hk, ih h]

theorem mapFind?_insertAdd_self_of_some {m : List (Int × Int)} {k : Int} {w1 : Int} (w : Int)
    (hs : sortedKeys m) (h : mapFind? m k = some w1) :
    mapFind? (mapInsertAdd m k w) k = some (w1 + w) := by
  induction m with
  | nil => simp [mapFind?] at h
  | cons p rest ih =>
    obtain ⟨kp, wp⟩ := p
    simp only [sortedKeys, List.pairwise_cons] at hs
    simp only [mapFind?] at h
    by_cases hk : kp = k
    · simp only [if_pos hk] at h
      cases h
      simp [mapInsertAdd, hk, mapFind?]
    · simp only [if_neg hk] at h
      obtain ⟨q, hq, hq1⟩ := List.mem_map.mp (mem_of_mapFind?_eq_some h)
      have hlt : kp < k := by
        have h2 := hs.1 q hq
        rw [hq1] at h2
        exact h2
      have hne : ¬ (k = kp) := fun hh => hk hh.symm
      have hnlt : ¬ (k < kp) := not_lt.mpr (le_of_lt hlt)
      simp only [mapInsertAdd, if_neg hne, if_neg hnlt, mapFind?, if_neg hk]
      exact ih hs.2 h

theorem mapFind?_erase_other {β : Type} {m : List (Int × β)} {k k1 : Int}
    (h : k1 ≠ k) : mapFind? (mapErase m k) k1 = mapFind? m k1 := by
  induction m with
  | nil => simp [mapErase]
  | cons p rest ih =>
    obtain ⟨kp, wp⟩ := p
    by_cases hk : kp = k
    · subst hk
      simp [mapErase, mapFind?, Ne.symm h]
    · simp only [mapErase, if_neg hk, mapFind?]
      by_cases hp : kp = k1
      · simp [hp]
      · simp [hp, ih]

theorem mapErase_sublist {β : Type} (m : List (Int × β)) (k : Int) :
    (mapErase m k).Sublist m := by
  induction m with
  | nil => simp [mapErase]
  | cons p rest ih =>
    by_cases hk : p.1 = k
    · simp only [mapErase]
      rw [if_pos hk]
      exact List.sublist_cons_self p rest
    · simp only [mapErase]
      rw [if_neg hk]
      exact ih.cons₂ p

theorem sortedKeys_erase {β : Type} {m : List (Int × β)} {k : Int}
    (hs : sortedKeys m) : sortedKeys (mapErase m k) :=
  List.Pairwise.sublist (mapErase_sublist m k) hs

/-- The representative's post-contraction edge weight read from a
neighbour's adjacency map is the combination of the two prior weights. -/
theorem mapFind?_transferEdge {e : List (Int × Int)} {rmv r : Int}
    (hs : sortedKeys e) (hrm : r ≠ rmv) :
    mapFind? (transferEdge e rmv r) r = combineW (mapFind? e r) (mapFind? e rmv) := by
  unfold transferEdge
  cases hrmv : mapFind? e rmv with
  | none =>
    cases hr : mapFind? e r with
    | none => simp [combineW]
    | some wr => simp [combineW]
  | some w =>
    cases hr : mapFind? e r with
    | none =>
      have h1 : mapFind? (mapErase e rmv) r = none := by
        rw [mapFind?_erase_other hrm]; exact hr
      simp [mapFind?_insertAdd_self_of_none w h1, combineW]
    | some wr =>
      have h1 : mapFind? (mapErase e rmv) r = some wr := by
        rw [mapFind?_erase_other hrm]; exact hr
      simp [mapFind?_insertAdd_self_of_some w (sortedKeys_erase hs) h1, combineW]

namespace GraphOfGrid

theorem findV_isSome_iff {vs : List (Int × Vertex)} {k : Int} :
    (findV vs k).isSome ↔ k ∈ vs.map Prod.fst := by
  induction vs with
  | nil => simp [findV]
  | cons p rest ih =>
    by_cases hp : p.1 = k
    · simp [findV, hp]
    · simp only [findV, List.map_cons, List.mem_cons]
      rw [if_neg hp, ih]
      constructor
      · exact fun h => Or.inr h
      · rintro (h | h)
        · exact absurd h.symm hp
        · exact h

theorem isLive_iff_findVertex {g : GraphOfGrid} {k : Int} :
    g.isLive k ↔ ∃ v, g.findVertex k = some v := by
  rw [isLive, ← @findV_isSome_iff g.vertices k]
  unfold findVertex
  cases findV g.vertices k <;> simp

theorem findV_mem {vs : List (Int × Vertex)} {k : Int} {v : Vertex}
    (h : findV vs k = some v) : (k, v) ∈ vs := by
  induction vs with
  | nil => simp [findV] at h
  | cons p rest ih =>
    obtain ⟨kp, vp⟩ := p
    by_cases hp : kp = k
    · subst hp
      simp only [findV, if_true, eq_self_iff_true, Option.some.injEq] at h
      rw [← h]
      exact List.mem_cons_self _ _
    · simp only [findV] at h
      rw [if_neg hp] at h
      exact List.mem_cons_of_mem _ (ih h)

/-- Keys after a contraction: exactly the old keys other than the
removed id, in order. -/
theorem keys_filterMap_contractEntry (vs : List (Int × Vertex)) {r rmv : Int}
    (vr : Vertex) (hrm : r ≠ rmv) :
    (vs.filterMap (contractEntry r rmv vr)).map Prod.fst =
      (vs.map Prod.fst).filter (fun x => decide (x ≠ rmv)) := by
  induction vs with
  | nil => simp
  | cons p rest ih =>
    by_cases h1 : p.1 = rmv
    · simp [List.filterMap_cons, contractEntry, h1, ih]
    · by_cases h2 : p.1 = r
      · simp [List.filterMap_cons, contractEntry, h1, h2, ih, hrm]
      · simp [List.filterMap_cons, contractEntry, h1, h2, ih]

theorem findV_filterMap_other {vs : List (Int × Vertex)} {r rmv x : Int}
    (vr : Vertex) (hxr : x ≠ r) (hxm : x ≠ rmv) :
    findV (vs.filterMap (contractEntry r rmv vr)) x =
      (findV vs x).map (fun v => { v with edges := transferEdge v.edges rmv r }) := by
  induction vs with
  | nil => simp [findV]
  | cons p rest ih =>
    by_cases h1 : p.1 = rmv
    · have hpx : ¬ (p.1 = x) := by rw [h1]; exact fun hh => hxm hh.symm
      simp only [List.filterMap_cons, contractEntry, if_pos h1, findV]
      rw [if_neg hpx]
      exact ih
    · by_cases h2 : p.1 = r
      · have hpx : ¬ (p.1 = x) := by rw [h2]; exact fun hh => hxr hh.symm
        simp only [List.filterMap_cons, contractEntry, if_neg h1, if_pos h2, findV]
        rw [if_neg (fun hh : r = x => hxr hh.symm), if_neg hpx]
        exact ih
      · simp only [List.filterMap_cons, contractEntry, if_neg h1, if_neg h2, findV]
        by_cases hpx : p.1 = x
        · rw [if_pos hpx, if_pos hpx]
          rfl
        · rw [if_neg hpx, if_neg hpx]
          exact ih

theorem findV_filterMap_rep {vs : List (Int × Vertex)} {r rmv : Int}
    (vr : Vertex) (hrm : r ≠ rmv) (hmem : r ∈ vs.map Prod.fst) :
    findV (vs.filterMap (contractEntry r rmv vr)) r = some vr := by
  induction vs with
  | nil => simp at hmem
  | cons p rest ih =>
    by_cases h2 : p.1 = r
    · simp only [List.filterMap_cons, contractEntry, h2, if_neg hrm, if_pos rfl, findV]
      simp
    · have hmem2 : r ∈ rest.map Prod.fst := by
        rcases List.mem_map.mp hmem with ⟨q, hq, hq1⟩
        rcases List.mem_cons.mp hq with hq2 | hq2
        · exact absurd (hq2 ▸ hq1) h2
        · exact List.mem_map.mpr ⟨q, hq2, hq1⟩
      by_cases h1 : p.1 = rmv
      · simp only [List.filterMap_cons, contractEntry, if_pos h1]
        exact ih hmem2
      · simp only [List.filterMap_cons, contractEntry, if_neg h1, if_neg h2, findV]
        exact ih hmem2

end GraphOfGrid

theorem combineW_comm (x y : Option Int) : combineW x y = combineW y x := by
  cases x <;> cases y <;> simp [combineW, add_comm]

theorem length_filter_ne_of_nodup {l : List Int} {a : Int} (hnd : l.Nodup) (ha : a ∈ l) :
    (l.filter (fun x => decide (x ≠ a))).length = l.length - 1 := by
  induction l with
  | nil => cases ha
  | cons b tl ih =>
    have hnd2 := List.nodup_cons.mp hnd
    by_cases hb : b = a
    · subst hb
      have hfilter : tl.filter (fun x => decide (x ≠ b)) = tl :=
        List.filter_eq_self.mpr
          (fun x hx => decide_eq_true (fun hxa : x = b => hnd2.1 (hxa ▸ hx)))
      simp [List.filter_cons, hfilter]
      exact fun x hx hxb => hnd2.1 (hxb ▸ hx)
    · have hatl : a ∈ tl := by
        rcases List.mem_cons.mp ha with h | h
        · exact absurd h.symm hb
        · exact h
      have hpos : 0 < tl.length := List.length_pos.mpr (List.ne_nil_of_mem hatl)
      have hih := ih hnd2.2 hatl
      rw [List.filter_cons, if_pos (by simp [hb])]
      simp only [List.length_cons, hih]
      omega

namespace GraphOfGrid

/-- The combined effect of one contraction, stated for an arbitrary
representative / removed pair and merged vertex. -/
theorem contractedGraph_spec (g : GraphOfGrid) (r rmv : Int) (vr : Vertex)
    (hnd : keysNodup g) (hes : edgesSorted g) (hrm : r ≠ rmv)
    (hr : r ∈ g.vertices.map Prod.fst) (hm : rmv ∈ g.vertices.map Prod.fst) :
    (contractedGraph g r rmv vr).size = g.size - 1 ∧
    (contractedGraph g r rmv vr).isLive r ∧
    ¬ (contractedGraph g r rmv vr).isLive rmv ∧
    ∀ v, (contractedGraph g r rmv vr).isLive v → v ≠ r →
      (contractedGraph g r rmv vr).edgeWeight v r =
        combineW (g.edgeWeight v r) (g.edgeWeight v rmv) := by
  have hkeys : (contractedGraph g r rmv vr).vertices.map Prod.fst =
      (g.vertices.map Prod.fst).filter (fun x => decide (x ≠ rmv)) :=
    keys_filterMap_contractEntry g.vertices vr hrm
  refine ⟨?_, ?_, ?_, ?_⟩
  · show (contractedGraph g r rmv vr).vertices.length = g.vertices.length - 1
    have h1 : (contractedGraph g r rmv vr).vertices.length =
        ((contractedGraph g r rmv vr).vertices.map Prod.fst).length :=
      (List.length_map _ _).symm
    rw [h1, hkeys, length_filter_ne_of_nodup hnd hm, List.length_map]
  · show r ∈ (contractedGraph g r rmv vr).vertices.map Prod.fst
    rw [hkeys]
    exact List.mem_filter.mpr ⟨hr, decide_eq_true hrm⟩
  · show ¬ rmv ∈ (contractedGraph g r rmv vr).vertices.map Prod.fst
    rw [hkeys]
    intro hcon
    have := (List.mem_filter.mp hcon).2
    simp at this
  · intro v hv hvr
    have hvkeys : v ∈ (g.vertices.map Prod.fst).filter (fun x => decide (x ≠ rmv)) := by
      rw [← hkeys]; exact hv
    have hvm : v ≠ rmv := by
      have := (List.mem_filter.mp hvkeys).2
      simpa using this
    have hvg : v ∈ g.vertices.map Prod.fst := (List.mem_filter.mp hvkeys).1
    obtain ⟨vv, hvv⟩ : ∃ vv, g.findVertex v = some vv :=
      isLive_iff_findVertex.mp hvg
    have hsorted : sortedKeys vv.edges := hes (v, vv) (findV_mem hvv)
    have hfind2 : (contractedGraph g r rmv vr).findVertex v =
        some { vv with edges := transferEdge vv.edges rmv r } := by
      show findV (g.vertices.filterMap (contractEntry r rmv vr)) v = _
      rw [findV_filterMap_other vr hvr hvm]
      show (findV g.vertices v).map _ = _
      rw [show findV g.vertices v = some vv from hvv]
      rfl
    show ((contractedGraph g r rmv vr).findVertex v).bind
        (fun vert => mapFind? vert.edges r) = _
    rw [hfind2]
    show mapFind? (transferEdge vv.edges rmv r) r = _
    rw [mapFind?_transferEdge hsorted hrm]
    show combineW (mapFind? vv.edges r) (mapFind? vv.edges rmv) = _
    have h3 : g.edgeWeight v r = mapFind? vv.edges r := by
      show (g.findVertex v).bind _ = _
      rw [hvv]
      rfl
    have h4 : g.edgeWeight v rmv = mapFind? vv.edges rmv := by
      show (g.findVertex v).bind _ = _
      rw [hvv]
      rfl
    rw [h3, h4]

theorem contractVertices_eq_some {g : GraphOfGrid} {a b : Int} {va vb : Vertex}
    (hab : a ≠ b) (hva : g.findVertex a = some va) (hvb : g.findVertex b = some vb) :
    g.contractVertices a b = some (contractedGraph g (min a b) (max a b)
      { weight := va.weight + vb.weight
        nproc := (if min a b = a then va else vb).nproc
        edges := mapErase (mapErase (mapMergeAdd va.edges vb.edges) a) b }) := by
  unfold contractVertices
  rw [if_neg hab, hva, hvb]

/-- C3: a contraction of two distinct live ids shrinks the graph by one
vertex, keeps `min a b` live, removes `max a b`, and gives every other
live vertex an edge to the representative that combines its prior edges
to `a` and to `b` (their sum when adjacent to both, the single prior
weight when adjacent to one). -/
theorem contractVertices_spec (g : GraphOfGrid) (a b : Int)
    (hnd : keysNodup g) (hes : edgesSorted g)
    (ha : g.isLive a) (hb : g.isLive b) (hab : a ≠ b) :
    ∃ g2, g.contractVertices a b = some g2 ∧
      g2.size = g.size - 1 ∧
      g2.isLive (min a b) ∧ ¬ g2.isLive (max a b) ∧
      ∀ v, g2.isLive v → v ≠ min a b →
        g2.edgeWeight v (min a b) = combineW (g.edgeWeight v a) (g.edgeWeight v b) := by
  obtain ⟨va, hva⟩ := isLive_iff_findVertex.mp ha
  obtain ⟨vb, hvb⟩ := isLive_iff_findVertex.mp hb
  have hrm : min a b ≠ max a b := by
    rcases lt_or_gt_of_ne hab with h | h
    · rw [min_eq_left h.le, max_eq_right h.le]
      exact hab
    · rw [min_eq_right h.le, max_eq_left h.le]
      exact hab.symm
  have hr : min a b ∈ g.vertices.map Prod.fst := by
    rcases min_choice a b with h | h <;> rw [h]
    · exact ha
    · exact hb
  have hm : max a b ∈ g.vertices.map Prod.fst := by
    rcases max_choice a b with h | h <;> rw [h]
    · exact ha
    · exact hb
  refine ⟨_, contractVertices_eq_some hab hva hvb, ?_⟩
  obtain ⟨h1, h2, h3, h4⟩ := contractedGraph_spec g (min a b) (max a b) _ hnd hes hrm hr hm
  refine ⟨h1, h2, h3, fun v hv hvr => ?_⟩
  rw [h4 v hv hvr]
  rcases lt_or_gt_of_ne hab with h | h
  · rw [min_eq_left h.le, max_eq_right h.le]
  · rw [min_eq_right h.le, max_eq_left h.le, combineW_comm]

theorem min_ne_max_of_ne {a b : Int} (hab : a ≠ b) : min a b ≠ max a b := by
  rcases lt_or_gt_of_ne hab with h | h
  · rw [min_eq_left h.le, max_eq_right h.le]
    exact hab
  · rw [min_eq_right h.le, max_eq_left h.le]
    exact hab.symm

/-- Inversion of a successful contraction. -/
theorem contractVertices_inv {g g2 : GraphOfGrid} {a b : Int}
    (h : g.contractVertices a b = some g2) :
    ∃ va vb, a ≠ b ∧ g.findVertex a = some va ∧ g.findVertex b = some vb ∧
      g2 = contractedGraph g (min a b) (max a b)
        { weight := va.weight + vb.weight
          nproc := (if min a b = a then va else vb).nproc
          edges := mapErase (mapErase (mapMergeAdd va.edges vb.edges) a) b } := by
  by_cases hab : a = b
  · unfold contractVertices at h
    rw [if_pos hab] at h
    cases h
  · cases hfa : g.findVertex a with
    | none =>
      cases hfb : g.findVertex b with
      | none =>
        unfold contractVertices at h
        rw [if_neg hab, hfa, hfb] at h
        cases h
      | some vb =>
        unfold contractVertices at h
        rw [if_neg hab, hfa, hfb] at h
        cases h
    | some va =>
      cases hfb : g.findVertex b with
      | none =>
        unfold contractVertices at h
        rw [if_neg hab, hfa, hfb] at h
        cases h
      | some vb =>
        rw [contractVertices_eq_some hab hfa hfb] at h
        cases h
        exact ⟨va, vb, hab, rfl, rfl, rfl⟩

theorem map_ifkey_absent {vs : List (Int × Vertex)} {k : Int} {W : Int}
    (f : Int × Vertex → Int) (h : k ∉ vs.map Prod.fst) :
    vs.map (fun p => if p.1 = k then W else f p) = vs.map f := by
  induction vs with
  | nil => rfl
  | cons p rest ih =>
    have h1 : ¬ p.1 = k := by
      intro hh
      exact h (by simp [hh])
    have h2 : k ∉ rest.map Prod.fst := by
      intro hh
      exact h (by simp [hh])
    simp only [List.map_cons]
    rw [if_neg h1, ih h2]

theorem sum_map_ifkey {vs : List (Int × Vertex)} {k : Int} {v0 : Vertex} {W : Int}
    (f : Int × Vertex → Int) (hnd : (vs.map Prod.fst).Nodup)
    (hfind : findV vs k = some v0) :
    (vs.map (fun p => if p.1 = k then W else f p)).sum =
      (vs.map f).sum - f (k, v0) + W := by
  induction vs with
  | nil => simp [findV] at hfind
  | cons p rest ih =>
    simp only [List.map_cons, List.nodup_cons] at hnd
    by_cases h1 : p.1 = k
    · simp only [findV] at hfind
      rw [if_pos h1] at hfind
      cases hfind
      have hp : (k, p.2) = p := by
        obtain ⟨kp, vp⟩ := p
        simp only at h1
        rw [h1]
      have habs : k ∉ rest.map Prod.fst := h1 ▸ hnd.1
      rw [List.map_cons, List.map_cons, List.sum_cons, List.sum_cons,
        if_pos h1, map_ifkey_absent f habs, hp]
      ring
    · simp only [findV] at hfind
      rw [if_neg h1] at hfind
      rw [List.map_cons, List.map_cons, List.sum_cons, List.sum_cons,
        if_neg h1, ih hnd.2 hfind]
      ring

theorem sum_weights_filterMap {vs : List (Int × Vertex)} {r rmv : Int} (vr : Vertex) :
    ((vs.filterMap (contractEntry r rmv vr)).map (fun p => p.2.weight)).sum =
      (vs.map (fun p =>
        if p.1 = rmv then 0 else if p.1 = r then vr.weight else p.2.weight)).sum := by
  induction vs with
  | nil => rfl
  | cons p rest ih =>
    by_cases h1 : p.1 = rmv
    · simp [List.filterMap_cons, contractEntry, h1, ih]
    · by_cases h2 : p.1 = r
      · have hrm : ¬ (r = rmv) := by
          rw [← h2]
          exact h1
        simp [List.filterMap_cons, contractEntry, h1, h2, hrm, ih]
      · simp [List.filterMap_cons, contractEntry, h1, h2, ih]

theorem totalWeight_contractedGraph {g : GraphOfGrid} {r rmv : Int}
    {vr vr0 vrm0 : Vertex} (hnd : keysNodup g) (hrm : r ≠ rmv)
    (hfr : g.findVertex r = some vr0) (hfm : g.findVertex rmv = some vrm0)
    (hw : vr.weight = vr0.weight + vrm0.weight) :
    (contractedGraph g r rmv vr).totalWeight = g.totalWeight := by
  show ((g.vertices.filterMap (contractEntry r rmv vr)).map (fun p => p.2.weight)).sum =
    (g.vertices.map (fun p => p.2.weight)).sum
  rw [sum_weights_filterMap]
  rw [sum_map_ifkey (f := fun p => if p.1 = r then vr.weight else p.2.weight) hnd hfm]
  rw [sum_map_ifkey (f := fun p => p.2.weight) hnd hfr]
  have h3 : ¬ ((rmv, vrm0) : Int × Vertex).1 = r := Ne.symm hrm
  rw [if_neg h3, hw]
  show ((List.map (fun p => p.2.weight) g.vertices).sum - vr0.weight +
      (vr0.weight + vrm0.weight) - vrm0.weight) + 0 =
    (List.map (fun p => p.2.weight) g.vertices).sum
  ring

theorem keysNodup_contractVertices {g g2 : GraphOfGrid} {a b : Int}
    (hnd : keysNodup g) (h : g.contractVertices a b = some g2) : keysNodup g2 := by
  obtain ⟨va, vb, hab, hfa, hfb, hg2⟩ := contractVertices_inv h
  subst hg2
  show ((g.vertices.filterMap (contractEntry _ _ _)).map Prod.fst).Nodup
  rw [keys_filterMap_contractEntry g.vertices _ (min_ne_max_of_ne hab)]
  exact hnd.filter _

theorem totalWeight_contractVertices {g g2 : GraphOfGrid} {a b : Int}
    (hnd : keysNodup g) (h : g.contractVertices a b = some g2) :
    g2.totalWeight = g.totalWeight := by
  obtain ⟨va, vb, hab, hfa, hfb, hg2⟩ := contractVertices_inv h
  subst hg2
  rcases lt_or_gt_of_ne hab with hlt | hlt
  · have hr : min a b = a := min_eq_left hlt.le
    have hm : max a b = b := max_eq_right hlt.le
    exact totalWeight_contractedGraph hnd (min_ne_max_of_ne hab)
      (show g.findVertex (min a b) = some va by rw [hr]; exact hfa)
      (show g.findVertex (max a b) = some vb by rw [hm]; exact hfb)
      rfl
  · have hr : min a b = b := min_eq_right hlt.le
    have hm : max a b = a := max_eq_left hlt.le
    exact totalWeight_contractedGraph hnd (min_ne_max_of_ne hab)
      (show g.findVertex (min a b) = some vb by rw [hr]; exact hfb)
      (show g.findVertex (max a b) = some va by rw [hm]; exact hfa)
      (add_comm va.weight vb.weight)

theorem applyContractions_totalWeight {ps : List (Int × Int)} {g g2 : GraphOfGrid}
    (hnd : keysNodup g) (h : applyContractions g ps = some g2) :
    g2.totalWeight = g.totalWeight := by
  induction ps generalizing g with
  | nil =>
    simp only [applyContractions] at h
    cases h
    rfl
  | cons p ps ih =>
    simp only [applyContractions] at h
    cases hc : g.contractVertices p.1 p.2 with
    | none => rw [hc] at h; cases h
    | some gm =>
      rw [hc] at h
      rw [ih (keysNodup_contractVertices hnd hc) h]
      exact totalWeight_contractVertices hnd hc

/-- The representative's weight after one contraction is the sum of the
two merged vertices' weights. -/
theorem contractVertices_rep_weight {g g2 : GraphOfGrid} {a b : Int}
    (h : g.contractVertices a b = some g2) :
    ∃ va vb, g.findVertex a = some va ∧ g.findVertex b = some vb ∧
      (g2.getVertex (min a b)).map Vertex.weight = some (va.weight + vb.weight) := by
  obtain ⟨va, vb, hab, hfa, hfb, hg2⟩ := contractVertices_inv h
  subst hg2
  refine ⟨va, vb, hfa, hfb, ?_⟩
  have hr : min a b ∈ g.vertices.map Prod.fst := by
    rcases min_choice a b with h1 | h1 <;> rw [h1]
    · exact findV_isSome_iff.mp (by rw [show findV g.vertices a = some va from hfa]; rfl)
    · exact findV_isSome_iff.mp (by rw [show findV g.vertices b = some vb from hfb]; rfl)
  have hfind := @findV_filterMap_rep g.vertices (min a b) (max a b)
    { weight := va.weight + vb.weight
      nproc := (if min a b = a then va else vb).nproc
      edges := mapErase (mapErase (mapMergeAdd va.edges vb.edges) a) b }
    (min_ne_max_of_ne hab) hr
  show ((findV (g.vertices.filterMap _) (min a b)).map Vertex.weight) = _
  rw [hfind]
  rfl

/-- C4: the total vertex weight over live vertices is invariant under
any sequence of contractions; each single contraction gives the
representative the sum of the two merged weights, so weight is only
transferred, never created or destroyed. -/
theorem totalWeight_invariant (g g2 : GraphOfGrid) (ps : List (Int × Int))
    (hnd : keysNodup g) (h : applyContractions g ps = some g2) :
    g2.totalWeight = g.totalWeight ∧
    ∀ gx gy : GraphOfGrid, ∀ a b : Int, gx.contractVertices a b = some gy →
      ∃ va vb, gx.findVertex a = some va ∧ gx.findVertex b = some vb ∧
        (gy.getVertex (min a b)).map Vertex.weight = some (va.weight + vb.weight) :=
  ⟨applyContractions_totalWeight hnd h,
   fun _ _ _ _ hc => contractVertices_rep_weight hc⟩

/-- Witness for C4 at the triangle graph: contracting `(0,1)` then
`(0,2)` succeeds and the theorem applies. -/
theorem totalWeight_invariant_witness :
    keysNodup demoGraph ∧
    applyContractions demoGraph [(0, 1), (0, 2)] =
      some { vertices := [(0, { weight := 3, nproc := 0, edges := [] })],
             wells := [], grid := { cartSize := 4, globalCell := [0, 1, 2] } } ∧
    (({ vertices := [(0, { weight := 3, nproc := 0, edges := [] })],
        wells := [], grid := { cartSize := 4, globalCell := [0, 1, 2] } } :
          GraphOfGrid).totalWeight = demoGraph.totalWeight ∧
      ∀ gx gy : GraphOfGrid, ∀ a b : Int, gx.contractVertices a b = some gy →
        ∃ va vb, gx.findVertex a = some va ∧ gx.findVertex b = some vb ∧
          (gy.getVertex (min a b)).map Vertex.weight = some (va.weight + vb.weight)) :=
  ⟨by decide, by decide,
   totalWeight_invariant demoGraph _ [(0, 1), (0, 2)] (by decide) (by decide)⟩

/-- Witness for C3 at the triangle graph: contracting the live distinct
ids `0` and `1`. -/
theorem contractVertices_spec_witness :
    keysNodup demoGraph ∧ edgesSorted demoGraph ∧
    demoGraph.isLive 0 ∧ demoGraph.isLive 1 ∧ (0 : Int) ≠ 1 ∧
    (∃ g2, demoGraph.contractVertices 0 1 = some g2 ∧
      g2.size = demoGraph.size - 1 ∧
      g2.isLive (min 0 1) ∧ ¬ g2.isLive (max 0 1) ∧
      ∀ v, g2.isLive v → v ≠ min 0 1 →
        g2.edgeWeight v (min 0 1) =
          combineW (demoGraph.edgeWeight v 0) (demoGraph.edgeWeight v 1)) :=
  ⟨by decide, by decide, by decide, by decide, by decide,
   contractVertices_spec demoGraph 0 1 (by decide) (by decide) (by decide)
     (by decide) (by decide)⟩

end GraphOfGrid

/-! ## C5: the well-addition registry count -/

theorem length_filter_not {α : Type} (l : List α) (p : α → Bool) :
    (l.filter (fun x => !p x)).length = l.length - (l.filter p).length := by
  induction l with
  | nil => rfl
  | cons x tl ih =>
    have hle : (tl.filter p).length ≤ tl.length := List.length_filter_le _ _
    by_cases hx : p x
    · simp [List.filter_cons, hx, ih]
    · simp [List.filter_cons, hx, ih]
      omega

namespace GraphOfGrid

/-- C5: with intersection checking on, adding a well whose merged cell
set has at least two members replaces the `k` overlapping registry
entries by a single merged entry: the registry grows by `1 - k`.
In particular a non-overlapping well adds one independent entry, and a
well bridging two existing wells merges them into one. -/
theorem addWell_registry_count (g : GraphOfGrid) (cellIds : List Int)
    (hbig : 2 ≤ ((g.wells.filter (fun w => wellIntersects w cellIds)).flatten.foldl
        (fun s x => setInsert x s) cellIds).length) :
    (g.addWell cellIds true).wells.length =
      g.wells.length - (g.wells.filter (fun w => wellIntersects w cellIds)).length + 1 ∧
    ((g.wells.filter (fun w => wellIntersects w cellIds)).length = 0 →
      (g.addWell cellIds true).wells.length = g.wells.length + 1) ∧
    ((g.wells.filter (fun w => wellIntersects w cellIds)).length = 2 →
      (g.addWell cellIds true).wells.length = g.wells.length - 1) := by
  have hk : (g.wells.filter (fun w => wellIntersects w cellIds)).length ≤ g.wells.length :=
    List.length_filter_le _ _
  have hmain : (g.addWell cellIds true).wells =
      (g.wells.filter (fun w => !wellIntersects w cellIds)) ++
        [(g.wells.filter (fun w => wellIntersects w cellIds)).flatten.foldl
          (fun s x => setInsert x s) cellIds] := by
    unfold addWell
    rw [if_pos rfl, if_neg (not_lt.mpr hbig)]
  rw [hmain]
  simp only [List.length_append, List.length_cons, List.length_nil]
  have hnot := length_filter_not g.wells (fun w => wellIntersects w cellIds)
  refine ⟨by omega, fun h0 => by omega, fun h2 => by omega⟩

/-- Witness for C5: a well bridging the two wells of `demoWellGraph`
(`k = 2`), with a merged member set of six cells. -/
theorem addWell_registry_count_witness :
    2 ≤ ((demoWellGraph.wells.filter
        (fun w => wellIntersects w [2, 5])).flatten.foldl
        (fun s x => setInsert x s) [2, 5]).length ∧
    ((demoWellGraph.addWell [2, 5] true).wells.length =
      demoWellGraph.wells.length -
        (demoWellGraph.wells.filter (fun w => wellIntersects w [2, 5])).length + 1 ∧
    ((demoWellGraph.wells.filter (fun w => wellIntersects w [2, 5])).length = 0 →
      (demoWellGraph.addWell [2, 5] true).wells.length =
        demoWellGraph.wells.length + 1) ∧
    ((demoWellGraph.wells.filter (fun w => wellIntersects w [2, 5])).length = 2 →
      (demoWellGraph.addWell [2, 5] true).wells.length =
        demoWellGraph.wells.length - 1)) :=
  ⟨by decide, addWell_registry_count demoWellGraph [2, 5] (by decide)⟩

end GraphOfGrid

/-! ## C10: expansion is the identity when the registry is empty -/

theorem expandLoop_nil {α : Type} [LinearOrder α] (l : List (Int × α)) :
    expandLoop ([] : List (Int × List Int)) l = [] := by
  cases l <;> simp [expandLoop, mapFind?]

theorem mergeLists_nil_right {α : Type} [LinearOrder α] (l : List (Int × α)) :
    mergeLists l [] = l := by
  cases l <;> simp [mergeLists]

/-- C10: when the graph has no wells, `extendImportExportList` returns
the input list unchanged — same length, same tuples, same order. -/
theorem extendImportExportList_no_wells {α : Type} [LinearOrder α]
    (g : GraphOfGrid) (h : g.getWells = []) (cellList : List (Int × α)) :
    extendImportExportList g cellList = cellList := by
  unfold extendImportExportList
  rw [h]
  show mergeLists cellList (List.insertionSort leGid (expandLoop (buildWellMap []) cellList)) = _
  rw [show buildWellMap [] = [] from rfl, expandLoop_nil]
  rw [show List.insertionSort leGid ([] : List (Int × α)) = [] from rfl]
  exact mergeLists_nil_right cellList

/-- Witness for C10 at a graph with an empty registry. -/
theorem extendImportExportList_no_wells_witness :
    demoGraph.getWells = [] ∧
    extendImportExportList demoGraph [((3 : Int), (7 : Int)), (5, 9)] = [(3, 7), (5, 9)] :=
  ⟨rfl, extendImportExportList_no_wells demoGraph rfl [(3, 7), (5, 9)]⟩

/-! ## C6: the edge-count batch callback -/

namespace GraphOfGrid

theorem numEdges_eq_neg_one_iff {g : GraphOfGrid} {id1 : Int} :
    g.numEdges id1 = -1 ↔ ¬ g.isLive id1 := by
  unfold numEdges
  cases hf : g.findVertex id1 with
  | some v =>
    have hlive : g.isLive id1 := isLive_iff_findVertex.mpr ⟨v, hf⟩
    simp [hlive]
  | none =>
    have hdead : ¬ g.isLive id1 := by
      intro hl
      obtain ⟨v, hv⟩ := isLive_iff_findVertex.mp hl
      rw [hf] at hv
      cases hv
    simp [hdead]

end GraphOfGrid

open GraphOfGrid in
/-- C6: the edge-count batch fills one count per requested id when all
ids are live and reports OK; as soon as a requested id is dead it
reports FATAL with a diagnostic naming that id, leaving the counts for
it and all later ids unfilled. -/
theorem getGraphOfGridNumEdges_spec (g : GraphOfGrid) (gIDs : List Int) :
    ((∀ id1 ∈ gIDs, g.isLive id1) →
      getGraphOfGridNumEdges g gIDs =
        (ZStatus.OK, gIDs.map (fun id1 => g.numEdges id1), none)) ∧
    (∀ pre d post, gIDs = pre ++ d :: post →
      (∀ x ∈ pre, g.isLive x) → ¬ g.isLive d →
      getGraphOfGridNumEdges g gIDs =
        (ZStatus.FATAL, pre.map (fun id1 => g.numEdges id1), some d)) := by
  constructor
  · intro hall
    induction gIDs with
    | nil => rfl
    | cons id1 rest ih =>
      have hlive := hall id1 (List.mem_cons_self _ _)
      have hne : ¬ g.numEdges id1 = -1 := by
        rw [numEdges_eq_neg_one_iff]
        exact not_not_intro hlive
      simp only [getGraphOfGridNumEdges]
      rw [if_neg hne, ih (fun x hx => hall x (List.mem_cons_of_mem _ hx))]
      rfl
  · intro pre d post hsplit hpre hd
    subst hsplit
    induction pre with
    | nil =>
      have hne : g.numEdges d = -1 := numEdges_eq_neg_one_iff.mpr hd
      simp only [List.nil_append, getGraphOfGridNumEdges]
      rw [if_pos hne]
      rfl
    | cons x pre2 ih =>
      have hlive := hpre x (List.mem_cons_self _ _)
      have hne : ¬ g.numEdges x = -1 := by
        rw [numEdges_eq_neg_one_iff]
        exact not_not_intro hlive
      simp only [List.cons_append, getGraphOfGridNumEdges]
      simp only [List.append_eq]
      rw [if_neg hne, ih (fun y hy => hpre y (List.mem_cons_of_mem _ hy))]
      rfl

/-- Witness for C6: a batch where the second id (`10`) is dead in the
triangle graph, after a fully live batch. -/
theorem getGraphOfGridNumEdges_spec_witness :
    (∀ id1 ∈ [(0 : Int), 2], demoGraph.isLive id1) ∧
    getGraphOfGridNumEdges demoGraph [0, 2] =
      (ZStatus.OK, [0, 2].map (fun id1 => demoGraph.numEdges id1), none) ∧
    ([(0 : Int), 10, 1] = [0] ++ 10 :: [1] ∧ (∀ x ∈ [(0 : Int)], demoGraph.isLive x) ∧
      ¬ demoGraph.isLive 10 ∧
      getGraphOfGridNumEdges demoGraph [0, 10, 1] =
        (ZStatus.FATAL, [(0 : Int)].map (fun id1 => demoGraph.numEdges id1), some 10)) :=
  ⟨by decide,
   (getGraphOfGridNumEdges_spec demoGraph [0, 2]).1 (by decide),
   rfl, by decide, by decide,
   (getGraphOfGridNumEdges_spec demoGraph [0, 10, 1]).2 [0] 10 [1] rfl
     (by decide) (by decide)⟩

/-! ## C7: the vertex-list callback -/

theorem take_succ_set {α : Type} (l : List α) (i : Nat) (x : α) (h : i < l.length) :
    (l.set i x).take (i + 1) = l.take i ++ [x] := by
  induction l generalizing i with
  | nil => cases h
  | cons a tl ih =>
    cases i with
    | zero => simp
    | succ n =>
      have hn : n < tl.length := by simpa using h
      show (a :: tl.set n x).take (n + 2) = (a :: tl.take n) ++ [x]
      rw [List.take_succ_cons, ih n hn]
      simp

theorem drop_set_of_lt {α : Type} (l : List α) (i k : Nat) (x : α) (h : i < k) :
    (l.set i x).drop k = l.drop k := by
  induction l generalizing i k with
  | nil => rfl
  | cons a tl ih =>
    cases i with
    | zero =>
      cases k with
      | zero => cases h
      | succ m => rfl
    | succ n =>
      cases k with
      | zero => cases h
      | succ m =>
        show (tl.set n x).drop m = tl.drop m
        exact ih n m (by omega)

theorem writeVerts_spec (vs : List (Int × Vertex)) (gbuf : List Int)
    (wbuf : List Int) (i : Nat)
    (h1 : i + vs.length ≤ gbuf.length) (h2 : i + vs.length ≤ wbuf.length) :
    writeVerts vs gbuf wbuf i =
      (gbuf.take i ++ vs.map Prod.fst ++ gbuf.drop (i + vs.length),
       wbuf.take i ++ vs.map (fun p => p.2.weight) ++ wbuf.drop (i + vs.length)) := by
  induction vs generalizing gbuf wbuf i with
  | nil =>
    show (gbuf, wbuf) = _
    simp [List.take_append_drop]
  | cons p tl ih =>
    obtain ⟨id1, v⟩ := p
    have hig : i < gbuf.length := by simp at h1; omega
    have hiw : i < wbuf.length := by simp at h2; omega
    simp only [writeVerts]
    rw [ih (gbuf.set i id1) (wbuf.set i v.weight) (i + 1)
      (by rw [List.length_set]; simp at h1 ⊢; omega)
      (by rw [List.length_set]; simp at h2 ⊢; omega)]
    rw [take_succ_set gbuf i id1 hig, take_succ_set wbuf i v.weight hiw]
    rw [drop_set_of_lt gbuf i (i + 1 + tl.length) id1 (by omega)]
    rw [drop_set_of_lt wbuf i (i + 1 + tl.length) v.weight (by omega)]
    have hidx : i + 1 + tl.length = i + (tl.length + 1) := by omega
    rw [hidx]
    simp [List.append_assoc]

open GraphOfGrid in
/-- C7: the vertex-list callback writes exactly one entry per live
vertex into the id and weight buffers — entry `i` being the `i`-th
vertex's id and weight in the graph's native iteration order — reports
OK, and leaves the local-id buffer untouched (the tail of each output
buffer past the written prefix also keeps its old contents). -/
theorem getGraphOfGridVerticesList_spec (g : GraphOfGrid)
    (gIDs lIDs : List Int) (objWeights : List Int)
    (h1 : g.size ≤ gIDs.length) (h2 : g.size ≤ objWeights.length) :
    getGraphOfGridVerticesList g gIDs lIDs objWeights =
      (gIDs.take 0 ++ g.vertices.map Prod.fst ++ gIDs.drop g.size,
       lIDs,
       objWeights.take 0 ++ g.vertices.map (fun p => p.2.weight) ++ objWeights.drop g.size,
       ZStatus.OK) := by
  unfold getGraphOfGridVerticesList
  rw [writeVerts_spec g.vertices gIDs objWeights 0 (by simpa using h1) (by simpa using h2)]
  simp [size]

/-! ## C2: the edge-list batch callback -/

open GraphOfGrid in
theorem emitEdges_of_live {g : GraphOfGrid} {es : List (Int × Int)}
    (h : ∀ e ∈ es, g.isLive e.1) :
    emitEdges g es = some (es.map (fun e => (e.1, nprocOf g e.1, e.2))) := by
  induction es with
  | nil => rfl
  | cons e tl ih =>
    obtain ⟨v, hv⟩ := isLive_iff_findVertex.mp (h e (List.mem_cons_self _ _))
    have hnp : nprocOf g e.1 = v.nproc := by
      unfold nprocOf getVertex
      rw [hv]
    have htl := ih (fun x hx => h x (List.mem_cons_of_mem _ hx))
    have hgv : g.getVertex e.1 = some v := hv
    unfold emitEdges at htl ⊢
    rw [List.mapM_cons, htl]
    simp [hgv, hnp]

open GraphOfGrid in
/-- C2: the edge-list batch reports OK and emits every requested id's
neighbour block when every caller-supplied expected count matches the
graph's count; at the first mismatching id it reports FATAL with a
diagnostic naming that id and the two counts, emitting nothing for the
mismatching id or any later id (only the blocks of the ids before it). -/
theorem getGraphOfGridEdgeList_spec (g : GraphOfGrid) (q : List (Int × Int))
    (hlive : ∀ p ∈ q, g.isLive p.1)
    (hnbr : ∀ p ∈ q, ∀ v, g.findVertex p.1 = some v → ∀ e ∈ v.edges, g.isLive e.1) :
    ((∀ p ∈ q, ∀ v, g.findVertex p.1 = some v → (v.edges.length : Int) = p.2) →
      getGraphOfGridEdgeList g q =
        EdgeListResult.result ZStatus.OK
          ((q.map (fun p => emittedFor g p.1)).flatten) none) ∧
    (∀ pre pd post, q = pre ++ pd :: post →
      (∀ p ∈ pre, ∀ v, g.findVertex p.1 = some v → (v.edges.length : Int) = p.2) →
      (∀ v, g.findVertex pd.1 = some v → (v.edges.length : Int) ≠ pd.2) →
      getGraphOfGridEdgeList g q =
        EdgeListResult.result ZStatus.FATAL
          ((pre.map (fun p => emittedFor g p.1)).flatten)
          (some { vertexId := pd.1, zoltanCount := pd.2,
                  graphCount := (g.numEdges pd.1).toNat })) := by
  constructor
  · intro hmatch
    induction q with
    | nil => rfl
    | cons p rest ih =>
      obtain ⟨v, hv⟩ := isLive_iff_findVertex.mp (hlive p (List.mem_cons_self _ _))
      have hedge : g.edgeList p.1 = some v.edges := by
        unfold edgeList
        rw [hv]
        rfl
      have hcnt := hmatch p (List.mem_cons_self _ _) v hv
      have hemit := emitEdges_of_live
        (hnbr p (List.mem_cons_self _ _) v hv)
      have ihr := ih (fun x hx => hlive x (List.mem_cons_of_mem _ hx))
        (fun x hx => hnbr x (List.mem_cons_of_mem _ hx))
        (fun x hx => hmatch x (List.mem_cons_of_mem _ hx))
      have hfor : emittedFor g p.1 = v.edges.map (fun e => (e.1, nprocOf g e.1, e.2)) := by
        unfold emittedFor
        rw [hedge]
      simp only [getGraphOfGridEdgeList, hedge, if_neg (not_not_intro hcnt), hemit, ihr,
        List.map_cons, List.flatten_cons, hfor]
  · intro pre pd post hsplit hpre hmis
    subst hsplit
    revert hlive hnbr hpre
    induction pre with
    | nil =>
      intro _ hlive hnbr
      obtain ⟨v, hv⟩ := isLive_iff_findVertex.mp (hlive pd (List.mem_cons_self _ _))
      have hedge : g.edgeList pd.1 = some v.edges := by
        unfold edgeList
        rw [hv]
        rfl
      have hcnt : (v.edges.length : Int) ≠ pd.2 := hmis v hv
      have hnum : (g.numEdges pd.1).toNat = v.edges.length := by
        unfold numEdges
        rw [hv]
        simp
      simp only [List.nil_append, getGraphOfGridEdgeList, hedge, if_pos hcnt,
        List.map_nil, List.flatten_nil, hnum]
    | cons x pre2 ih =>
      intro hpre hlive hnbr
      obtain ⟨v, hv⟩ := isLive_iff_findVertex.mp (hlive x (List.mem_cons_self _ _))
      have hedge : g.edgeList x.1 = some v.edges := by
        unfold edgeList
        rw [hv]
        rfl
      have hcnt := hpre x (List.mem_cons_self _ _) v hv
      have hemit := emitEdges_of_live
        (hnbr x (List.mem_cons_self _ _) v hv)
      have ihr := ih (fun y hy => hpre y (List.mem_cons_of_mem _ hy))
        (fun y hy => hlive y (List.mem_cons_of_mem _ hy))
        (fun y hy => hnbr y (List.mem_cons_of_mem _ hy))
      have hfor : emittedFor g x.1 = v.edges.map (fun e => (e.1, nprocOf g e.1, e.2)) := by
        unfold emittedFor
        rw [hedge]
      simp only [List.cons_append, getGraphOfGridEdgeList, hedge,
        if_neg (not_not_intro hcnt), hemit, List.append_eq] at ihr ⊢
      rw [ihr]
      simp only [List.map_cons, List.flatten_cons, hfor]

open GraphOfGrid in
/-- Witness for C2 on the triangle graph: a fully matching batch and a
batch whose second id carries a wrong expected count. -/
theorem getGraphOfGridEdgeList_spec_witness :
    (∀ p ∈ [((0 : Int), (2 : Int)), (2, 2)], demoGraph.isLive p.1) ∧
    getGraphOfGridEdgeList demoGraph [(0, 2), (2, 2)] =
      EdgeListResult.result ZStatus.OK
        (([((0 : Int), (2 : Int)), (2, 2)].map
          (fun p => emittedFor demoGraph p.1)).flatten) none ∧
    getGraphOfGridEdgeList demoGraph [(0, 2), (1, 5), (2, 2)] =
      EdgeListResult.result ZStatus.FATAL
        (([((0 : Int), (2 : Int))].map (fun p => emittedFor demoGraph p.1)).flatten)
        (some { vertexId := 1, zoltanCount := 5,
                graphCount := (demoGraph.numEdges 1).toNat }) :=
  ⟨by decide,
   (getGraphOfGridEdgeList_spec demoGraph [(0, 2), (2, 2)] (by decide)
     (by decide)).1 (by decide),
   (getGraphOfGridEdgeList_spec demoGraph [(0, 2), (1, 5), (2, 2)] (by decide)
     (by decide)).2 [(0, 2)] (1, 5) [(2, 2)] rfl (by decide) (by decide)⟩

open GraphOfGrid in
/-- Witness for C7: exactly sized buffers for the triangle graph, with a
sentinel local-id buffer that is returned unchanged. -/
theorem getGraphOfGridVerticesList_spec_witness :
    demoGraph.size ≤ ([9, 9, 9] : List Int).length ∧
    demoGraph.size ≤ ([8, 8, 8] : List Int).length ∧
    getGraphOfGridVerticesList demoGraph [9, 9, 9] [7, 7] [8, 8, 8] =
      (([9, 9, 9] : List Int).take 0 ++ demoGraph.vertices.map Prod.fst ++
         ([9, 9, 9] : List Int).drop demoGraph.size,
       [7, 7],
       ([8, 8, 8] : List Int).take 0 ++
         demoGraph.vertices.map (fun p => p.2.weight) ++
         ([8, 8, 8] : List Int).drop demoGraph.size,
       ZStatus.OK) :=
  ⟨by decide, by decide,
   getGraphOfGridVerticesList_spec demoGraph [9, 9, 9] [7, 7] [8, 8, 8]
     (by decide) (by decide)⟩

/-! ## C9: all four callbacks are read-only on the graph -/

/-- C9: running any sequence of the four partitioner callbacks returns
the graph unchanged — each callback only reads the graph (vertex count,
vertices, edge counts, edge lists) and produces only its status and its
own outputs, whether it reports OK or FATAL. -/
theorem runCalls_frame (g : GraphOfGrid) (cs : List ZCall) :
    (runCalls g cs).1 = g := by
  induction cs with
  | nil => rfl
  | cons c cs ih =>
    have hz : (zStep g c).1 = g := by cases c <;> rfl
    show (runCalls (zStep g c).1 cs).1 = g
    rw [hz, ih]

/-! ## C8: cartesian wells and the active-cell contract -/

theorem getD_set_ne {α : Type} (l : List α) (m n : Nat) (x d : α) (h : m ≠ n) :
    (l.set m x).getD n d = l.getD n d := by
  induction l generalizing m n with
  | nil => rfl
  | cons a tl ih =>
    cases m with
    | zero =>
      cases n with
      | zero => exact absurd rfl h
      | succ n2 => rfl
    | succ m2 =>
      cases n with
      | zero => rfl
      | succ n2 =>
        show (tl.set m2 x).getD n2 d = tl.getD n2 d
        exact ih m2 n2 (by omega)

theorem getD_set_self {α : Type} (l : List α) (m : Nat) (x d : α) (h : m < l.length) :
    (l.set m x).getD m d = x := by
  induction l generalizing m with
  | nil => cases h
  | cons a tl ih =>
    cases m with
    | zero => rfl
    | succ m2 =>
      show (tl.set m2 x).getD m2 d = x
      exact ih m2 (by simpa using h)

theorem getD_replicate_self (n c : Nat) :
    ((List.replicate n (-1 : Int)).getD c (-1)) = -1 := by
  induction n generalizing c with
  | zero => cases c <;> rfl
  | succ n2 ih =>
    cases c with
    | zero => rfl
    | succ c2 => exact ih c2

theorem length_buildC2C (gcell : List Nat) (i : Int) (acc : List Int) :
    (buildC2C gcell i acc).length = acc.length := by
  induction gcell generalizing i acc with
  | nil => rfl
  | cons c rest ih =>
    show (buildC2C rest (i + 1) (acc.set c i)).length = _
    rw [ih, List.length_set]

theorem getD_buildC2C_not_mem {gcell : List Nat} {i : Int} {acc : List Int} {c : Nat}
    (h : c ∉ gcell) : (buildC2C gcell i acc).getD c (-1) = acc.getD c (-1) := by
  induction gcell generalizing i acc with
  | nil => rfl
  | cons c1 rest ih =>
    have hc1 : c1 ≠ c := fun hh => h (hh ▸ List.mem_cons_self _ _)
    show (buildC2C rest (i + 1) (acc.set c1 i)).getD c (-1) = _
    rw [ih (fun hh => h (List.mem_cons_of_mem _ hh)), getD_set_ne _ _ _ _ _ hc1]

theorem getD_buildC2C_get {gcell : List Nat} (i : Int) (acc : List Int) {j : Nat}
    (hnd : gcell.Nodup) (hj : j < gcell.length)
    (hlen : ∀ c ∈ gcell, c < acc.length) :
    (buildC2C gcell i acc).getD (gcell.get ⟨j, hj⟩) (-1) = i + j := by
  induction gcell generalizing i acc j with
  | nil => cases hj
  | cons c1 rest ih =>
    have hnd2 := List.nodup_cons.mp hnd
    cases j with
    | zero =>
      show (buildC2C rest (i + 1) (acc.set c1 i)).getD c1 (-1) = i + 0
      rw [getD_buildC2C_not_mem hnd2.1,
        getD_set_self _ _ _ _ (hlen c1 (List.mem_cons_self _ _))]
      omega
    | succ j2 =>
      have hj2 : j2 < rest.length := by simpa using hj
      show (buildC2C rest (i + 1) (acc.set c1 i)).getD (rest.get ⟨j2, hj2⟩) (-1) = _
      rw [ih (i + 1) (acc.set c1 i) hnd2.2 hj2
        (fun c hc => by rw [List.length_set]; exact hlen c (List.mem_cons_of_mem _ hc))]
      omega

theorem mem_setInsert (x y : Int) (l : List Int) :
    x ∈ setInsert y l ↔ x = y ∨ x ∈ l := by
  induction l with
  | nil => simp [setInsert]
  | cons a tl ih =>
    by_cases h1 : y = a
    · subst h1
      simp [setInsert]
    · by_cases h2 : y < a
      · simp [setInsert, h1, h2]

      · simp [setInsert, h1, h2, List.mem_cons, ih]
        constructor
        · rintro (h | h)
          · exact Or.inr (Or.inl h)
          · rcases h with h | h
            · exact Or.inl h
            · exact Or.inr (Or.inr h)
        · rintro (h | h)
          · exact Or.inr (Or.inl h)
          · rcases h with h | h
            · exact Or.inl h
            · exact Or.inr (Or.inr h)

theorem translateWell_bad {gcell : List Nat} {sz : Nat} {w : List Nat}
    (hbad : ∃ c ∈ w, c ∉ gcell) :
    translateWell (buildC2C gcell 0 (List.replicate sz (-1))) w = none := by
  induction w with
  | nil =>
    rcases hbad with ⟨c, hc, _⟩
    cases hc
  | cons cell rest ih =>
    rcases hbad with ⟨c, hc, hcbad⟩
    unfold translateWell
    rcases List.mem_cons.mp hc with hceq | hcrest
    · subst hceq
      by_cases hlt : c < (buildC2C gcell 0 (List.replicate sz (-1))).length
      · have hget : (buildC2C gcell 0 (List.replicate sz (-1))).getD c (-1) = -1 := by
          rw [getD_buildC2C_not_mem hcbad, getD_replicate_self]
        have hat2 : c2cAt (buildC2C gcell 0 (List.replicate sz (-1))) c = some (-1) := by
          unfold c2cAt
          rw [if_pos hlt, hget]
        simp [hat2]
      · have hat2 : c2cAt (buildC2C gcell 0 (List.replicate sz (-1))) c = none := by
          unfold c2cAt
          rw [if_neg hlt]
        simp [hat2]
    · cases hat : c2cAt (buildC2C gcell 0 (List.replicate sz (-1))) cell with
      | none => simp [hat]
      | some gid =>
        by_cases hgid : gid = -1
        · simp [hat, hgid]
        · simp [hat, hgid, ih ⟨c, hcrest, hcbad⟩]

theorem translateWell_good {gcell : List Nat} {sz : Nat} {w : List Nat}
    (hnd : gcell.Nodup) (hrange : ∀ c ∈ gcell, c < sz)
    (hgood : ∀ c ∈ w, c ∈ gcell) :
    ∃ ids, translateWell (buildC2C gcell 0 (List.replicate sz (-1))) w = some ids ∧
      ∀ x : Int, x ∈ ids ↔ ∃ k : Nat, ∃ hk : k < gcell.length,
        gcell.get ⟨k, hk⟩ ∈ w ∧ x = (k : Int) := by
  induction w with
  | nil =>
    refine ⟨[], rfl, ?_⟩
    simp
  | cons cell rest ih =>
    obtain ⟨idsr, hr, hspec⟩ := ih (fun c hc => hgood c (List.mem_cons_of_mem _ hc))
    have hcell := hgood cell (List.mem_cons_self _ _)
    obtain ⟨⟨j0, hj0⟩, hget0⟩ := List.mem_iff_get.mp hcell
    have hlen : cell < (buildC2C gcell 0 (List.replicate sz (-1))).length := by
      rw [length_buildC2C, List.length_replicate]
      exact hrange cell hcell
    have hval : (buildC2C gcell 0 (List.replicate sz (-1))).getD cell (-1) = (j0 : Int) := by
      rw [← hget0, getD_buildC2C_get 0 _ hnd hj0
        (fun c hc => by rw [List.length_replicate]; exact hrange c hc)]
      omega
    have hne : ¬ ((j0 : Int) = -1) := by omega
    refine ⟨setInsert (j0 : Int) idsr, ?_, ?_⟩
    · unfold translateWell
      have hat2 : c2cAt (buildC2C gcell 0 (List.replicate sz (-1))) cell =
          some (j0 : Int) := by
        unfold c2cAt
        rw [if_pos hlen, hval]
      simp [hat2, hne, hr]
    · intro x
      rw [mem_setInsert, hspec]
      constructor
      · rintro (h | ⟨k, hk, hmem, hx⟩)
        · exact ⟨j0, hj0, by rw [hget0]; exact List.mem_cons_self _ _, h⟩
        · exact ⟨k, hk, List.mem_cons_of_mem _ hmem, hx⟩
      · rintro ⟨k, hk, hmem, hx⟩
        rcases List.mem_cons.mp hmem with hq | hq
        · left
          have hkj : (⟨k, hk⟩ : Fin gcell.length) = ⟨j0, hj0⟩ :=
            (List.Nodup.get_inj_iff hnd).mp (by rw [hget0, hq])
          have hkj2 : k = j0 := by
            cases hkj
            rfl
          rw [hx, hkj2]
        · right
          exact ⟨k, hk, hq, hx⟩

theorem foldlM_addWell_none (c2c : List Int) (check : Bool) :
    ∀ (wells : List (List Nat)) (g0 : GraphOfGrid),
    (∃ w ∈ wells, translateWell c2c w = none) →
    (wells.foldlM (fun gacc w => do
        let ids ← translateWell c2c w
        pure (GraphOfGrid.addWell gacc ids check)) g0) = none := by
  intro wells
  induction wells with
  | nil =>
    intro g0 h
    rcases h with ⟨w, hw, _⟩
    cases hw
  | cons w ws ih =>
    intro g0 h
    cases hat : translateWell c2c w with
    | none => simp [List.foldlM_cons, hat]
    | some ids =>
      rcases h with ⟨w2, hw2, hfail⟩
      rcases List.mem_cons.mp hw2 with hq | hq
      · rw [hq] at hfail
        rw [hfail] at hat
        cases hat
      · simp only [List.foldlM_cons, hat]
        simpa using ih (g0.addWell ids check) ⟨w2, hq, hfail⟩

theorem foldlM_addWell_some (c2c : List Int) (check : Bool)
    (spec : List Int → List Nat → Prop) :
    ∀ (wells : List (List Nat)) (g0 : GraphOfGrid),
    (∀ w ∈ wells, ∃ ids, translateWell c2c w = some ids ∧ spec ids w) →
    ∃ gids, (wells.foldlM (fun gacc w => do
        let ids ← translateWell c2c w
        pure (GraphOfGrid.addWell gacc ids check)) g0) =
      some (gids.foldl (fun gacc ids => GraphOfGrid.addWell gacc ids check) g0) ∧
      List.Forall₂ spec gids wells := by
  intro wells
  induction wells with
  | nil =>
    intro g0 _
    exact ⟨[], rfl, List.Forall₂.nil⟩
  | cons w ws ih =>
    intro g0 h
    obtain ⟨ids0, hids0, hspec0⟩ := h w (List.mem_cons_self _ _)
    obtain ⟨gids, hres, hrel⟩ :=
      ih (g0.addWell ids0 check) (fun w2 hw2 => h w2 (List.mem_cons_of_mem _ hw2))
    refine ⟨ids0 :: gids, ?_, List.Forall₂.cons hspec0 hrel⟩
    simp only [List.foldlM_cons, hids0, List.foldl_cons]
    simpa using hres

open GraphOfGrid in
/-- C8: `addFutureConnectionWells` fails fatally (assertion /
out-of-range throw, modelled as `none`) exactly when some well
references a cartesian cell that does not map to an active cell; when
every referenced cell is active it translates each well's cartesian
indices into the corresponding compressed cell ids and forwards each
translated id set to `addWell` in order. -/
theorem addFutureConnectionWells_spec (g : GraphOfGrid) (wells : List (List Nat))
    (check : Bool) (hnd : g.grid.globalCell.Nodup)
    (hrange : ∀ c ∈ g.grid.globalCell, c < g.grid.cartSize) :
    ((∃ w ∈ wells, ∃ c ∈ w, c ∉ g.grid.globalCell) →
      addFutureConnectionWells g wells check = none) ∧
    ((∀ w ∈ wells, ∀ c ∈ w, c ∈ g.grid.globalCell) →
      ∃ gids : List (List Int),
        addFutureConnectionWells g wells check =
          some (gids.foldl (fun gacc ids => gacc.addWell ids check) g) ∧
        List.Forall₂ (fun ids w => ∀ x : Int, x ∈ ids ↔ ∃ k : Nat,
          ∃ hk : k < g.grid.globalCell.length,
            g.grid.globalCell.get ⟨k, hk⟩ ∈ w ∧ x = (k : Int)) gids wells) := by
  constructor
  · rintro ⟨w, hw, c, hc, hbad⟩
    exact foldlM_addWell_none _ check wells g
      ⟨w, hw, translateWell_bad ⟨c, hc, hbad⟩⟩
  · intro hgood
    exact foldlM_addWell_some _ check _ wells g
      (fun w hw => translateWell_good hnd hrange (hgood w hw))

open GraphOfGrid in
/-- Witness for C8 on the triangle graph's grid (cartesian size 4,
active cells 0,1,2): a well referencing inactive cell 3 fails, a well
over active cells 0 and 2 is translated and added. -/
theorem addFutureConnectionWells_spec_witness :
    demoGraph.grid.globalCell.Nodup ∧
    (∀ c ∈ demoGraph.grid.globalCell, c < demoGraph.grid.cartSize) ∧
    ((∃ w ∈ [[(3 : Nat)]], ∃ c ∈ w, c ∉ demoGraph.grid.globalCell) ∧
      addFutureConnectionWells demoGraph [[3]] true = none) ∧
    ((∀ w ∈ [[(0 : Nat), 2]], ∀ c ∈ w, c ∈ demoGraph.grid.globalCell) ∧
      ∃ gids : List (List Int),
        addFutureConnectionWells demoGraph [[0, 2]] true =
          some (gids.foldl (fun gacc ids => gacc.addWell ids true) demoGraph) ∧
        List.Forall₂ (fun ids w => ∀ x : Int, x ∈ ids ↔ ∃ k : Nat,
          ∃ hk : k < demoGraph.grid.globalCell.length,
            demoGraph.grid.globalCell.get ⟨k, hk⟩ ∈ w ∧ x = (k : Int))
          gids [[0, 2]]) :=
  ⟨by decide, by decide,
   ⟨by decide,
    (addFutureConnectionWells_spec demoGraph [[3]] true (by decide) (by decide)).1
      (by decide)⟩,
   ⟨by decide,
    (addFutureConnectionWells_spec demoGraph [[0, 2]] true (by decide) (by decide)).2
      (by decide)⟩⟩

/-! ## C1: lemmas about the well map and the expansion loop -/

theorem mapFind?_eq_some_mem {β : Type} {m : List (Int × β)} {k : Int} {v : β}
    (h : mapFind? m k = some v) : (k, v) ∈ m := by
  induction m with
  | nil => cases h
  | cons p rest ih =>
    obtain ⟨kp, vp⟩ := p
    simp only [mapFind?] at h
    by_cases hk : kp = k
    · rw [if_pos hk] at h
      cases h
      subst hk
      exact List.mem_cons_self _ _
    · rw [if_neg hk] at h
      exact List.mem_cons_of_mem _ (ih h)

theorem mapStore_append {β : Type} {m : List (Int × β)} {k : Int} (v : β)
    (h : k ∉ m.map Prod.fst) : mapStore m k v = m ++ [(k, v)] := by
  induction m with
  | nil => rfl
  | cons p rest ih =>
    have h1 : ¬ p.1 = k := by
      intro hh
      exact h (by simp [hh])
    have h2 : k ∉ rest.map Prod.fst := by
      intro hh
      exact h (by simp [hh])
    show mapStore (p :: rest) k v = _
    obtain ⟨kp, vp⟩ := p
    simp only [mapStore]
    rw [if_neg h1, ih h2]
    rfl

theorem foldl_mapStore (wells : List (List Int)) :
    ∀ acc : List (Int × List Int),
    (∀ w ∈ wells, w.headI ∉ acc.map Prod.fst) →
    (wells.map (fun w => w.headI)).Nodup →
    wells.foldl (fun m w => mapStore m w.headI w) acc =
      acc ++ wells.map (fun w => (w.headI, w)) := by
  induction wells with
  | nil =>
    intro acc _ _
    simp
  | cons w ws ih =>
    intro acc hdisj hnd
    have hnd2 := List.nodup_cons.mp
      (show (w.headI :: ws.map (fun w => w.headI)).Nodup from hnd)
    have hstore : mapStore acc w.headI w = acc ++ [(w.headI, w)] :=
      mapStore_append w (hdisj w (List.mem_cons_self _ _))
    show ws.foldl (fun m w => mapStore m w.headI w) (mapStore acc w.headI w) = _
    rw [hstore, ih (acc ++ [(w.headI, w)]) ?_ hnd2.2]
    · simp
    · intro w2 hw2
      rw [List.map_append, List.mem_append]
      rintro (hin | hin)
      · exact hdisj w2 (List.mem_cons_of_mem _ hw2) hin
      · simp only [List.map_cons, List.map_nil, List.mem_singleton] at hin
        exact hnd2.1 (hin ▸ List.mem_map.mpr ⟨w2, hw2, rfl⟩)

theorem buildWellMap_eq {wells : List (List Int)}
    (hnd : (wells.map (fun w => w.headI)).Nodup) :
    buildWellMap wells = wells.map (fun w => (w.headI, w)) := by
  unfold buildWellMap
  rw [foldl_mapStore wells [] (by simp) hnd]
  rfl

section ExpandLoopLemmas

variable {α : Type} [LinearOrder α]

/-- The expansion loop without the (behaviour-preserving) early break. -/
theorem expandLoop_eq (wm : List (Int × List Int)) (t : Int × α) (rest : List (Int × α)) :
    expandLoop wm (t :: rest) =
      match mapFind? wm t.1 with
      | some well =>
        ((well.filter (fun m => m != t.1)).map (fun m => (m, t.2))) ++
          expandLoop (mapErase wm t.1) rest
      | none => expandLoop wm rest := by
  show (match mapFind? wm t.1 with
      | some well =>
        if (mapErase wm t.1).isEmpty then
          (well.filter (fun m => m != t.1)).map (fun m => (m, t.2))
        else ((well.filter (fun m => m != t.1)).map (fun m => (m, t.2))) ++
          expandLoop (mapErase wm t.1) rest
      | none => if wm.isEmpty then [] else expandLoop wm rest) = _
  cases hf : mapFind? wm t.1 with
  | some well =>
    show (if (mapErase wm t.1).isEmpty then
        (well.filter (fun m => m != t.1)).map (fun m => (m, t.2))
      else ((well.filter (fun m => m != t.1)).map (fun m => (m, t.2))) ++
        expandLoop (mapErase wm t.1) rest) =
      ((well.filter (fun m => m != t.1)).map (fun m => (m, t.2))) ++
        expandLoop (mapErase wm t.1) rest
    by_cases he : (mapErase wm t.1).isEmpty
    · have hnil : mapErase wm t.1 = [] := by
        cases hm : mapErase wm t.1
        · rfl
        · rw [hm] at he
          cases he
      rw [if_pos he, hnil, expandLoop_nil, List.append_nil]
    · rw [if_neg he]
  | none =>
    show (if wm.isEmpty then [] else expandLoop wm rest) = expandLoop wm rest
    by_cases he : wm.isEmpty
    · have hnil : wm = [] := by
        cases hm : wm
        · rfl
        · rw [hm] at he
          cases he
      rw [if_pos he, hnil, expandLoop_nil]
    · rw [if_neg he]

theorem mapFind?_isSome_iff {β : Type} {m : List (Int × β)} {k : Int} :
    (mapFind? m k).isSome ↔ k ∈ m.map Prod.fst := by
  induction m with
  | nil => simp [mapFind?]
  | cons p rest ih =>
    by_cases hp : p.1 = k
    · simp [mapFind?, hp]
    · simp only [mapFind?, List.map_cons, List.mem_cons]
      rw [if_neg hp, ih]
      constructor
      · exact fun h => Or.inr h
      · rintro (h | h)
        · exact absurd h.symm hp
        · exact h

theorem sumContrib_not_mem {wm : List (Int × List Int)} {k : Int} {gids : List Int}
    (h : k ∉ wm.map Prod.fst) :
    sumContrib wm (k :: gids) = sumContrib wm gids := by
  unfold sumContrib
  have hcongr : wm.filter (fun p => (k :: gids).contains p.1) =
      wm.filter (fun p => gids.contains p.1) := by
    apply List.filter_congr
    intro p hp
    have hne : p.1 ≠ k := by
      intro hh
      exact h (hh ▸ List.mem_map.mpr ⟨p, hp, rfl⟩)
    simp [List.contains_cons, hne]
  rw [hcongr]

theorem sumContrib_erase {wm : List (Int × List Int)} {k : Int} {well gids : List Int}
    (hnd : (wm.map Prod.fst).Nodup) (hf : mapFind? wm k = some well) :
    sumContrib wm (k :: gids) =
      (well.filter (fun m => m != k)).length + sumContrib (mapErase wm k) gids := by
  induction wm with
  | nil => cases hf
  | cons p tl ih =>
    have hnd2 := List.nodup_cons.mp
      (show (p.1 :: tl.map Prod.fst).Nodup from hnd)
    by_cases hp : p.1 = k
    · have hwell : p.2 = well := by
        simp only [mapFind?] at hf
        rw [if_pos hp] at hf
        cases hf
        rfl
      have herase : mapErase (p :: tl) k = tl := by
        show (if p.1 = k then tl else p :: mapErase tl k) = tl
        rw [if_pos hp]
      have hkmem : (k :: gids).contains p.1 = true := by
        simp [List.contains_cons, hp]
      rw [herase]
      unfold sumContrib
      rw [List.filter_cons, if_pos (by simp [hp])]
      rw [List.map_cons, List.sum_cons]
      have htl : tl.filter (fun q => (k :: gids).contains q.1) =
          tl.filter (fun q => gids.contains q.1) := by
        apply List.filter_congr
        intro q hq
        have hne : q.1 ≠ k := by
          intro hh
          exact hnd2.1 (hp ▸ hh ▸ List.mem_map.mpr ⟨q, hq, rfl⟩)
        simp [List.contains_cons, hne]
      rw [htl, hwell, hp]
    · have hf2 : mapFind? tl k = some well := by
        simp only [mapFind?] at hf
        rw [if_neg hp] at hf
        exact hf
      have herase : mapErase (p :: tl) k = p :: mapErase tl k := by
        show (if p.1 = k then tl else p :: mapErase tl k) = _
        rw [if_neg hp]
      have hcond : ((k :: gids).contains p.1) = (gids.contains p.1) := by
        simp [List.contains_cons, hp]
      rw [herase]
      unfold sumContrib
      rw [List.filter_cons, List.filter_cons, hcond]
      by_cases hmem : gids.contains p.1
      · rw [if_pos (by simpa using hmem), if_pos (by simpa using hmem)]
        rw [List.map_cons, List.sum_cons, List.map_cons, List.sum_cons]
        have := ih hnd2.2 hf2
        unfold sumContrib at this
        omega
      · rw [if_neg (by simpa using hmem), if_neg (by simpa using hmem)]
        have := ih hnd2.2 hf2
        unfold sumContrib at this
        omega

theorem expandLoop_length (l : List (Int × α)) :
    ∀ wm : List (Int × List Int), (wm.map Prod.fst).Nodup →
    (expandLoop wm l).length = sumContrib wm (l.map Prod.fst) := by
  induction l with
  | nil =>
    intro wm _
    show (0 : Nat) = sumContrib wm []
    unfold sumContrib
    have : wm.filter (fun p => ([] : List Int).contains p.1) = [] := by
      apply List.filter_eq_nil_iff.mpr
      intro p _
      simp
    rw [this]
    rfl
  | cons t rest ih =>
    intro wm hnd
    rw [expandLoop_eq]
    cases hf : mapFind? wm t.1 with
    | some well =>
      have hnd2 : ((mapErase wm t.1).map Prod.fst).Nodup :=
        List.Nodup.sublist ((mapErase_sublist wm t.1).map Prod.fst) hnd
      rw [List.length_append, List.length_map,
        ih (mapErase wm t.1) hnd2, List.map_cons,
        sumContrib_erase hnd hf]
    | none =>
      have hnot : t.1 ∉ wm.map Prod.fst := by
        intro hmem
        have := mapFind?_isSome_iff.mpr hmem
        rw [hf] at this
        cases this
      rw [ih wm hnd, List.map_cons, sumContrib_not_mem hnot]

theorem expandLoop_mem (l : List (Int × α)) :
    ∀ wm : List (Int × List Int), ∀ t ∈ expandLoop wm l,
      ∃ k w, (k, w) ∈ wm ∧ ∃ t0 ∈ l, t0.1 = k ∧ t.1 ∈ w ∧ t.1 ≠ k ∧ t.2 = t0.2 := by
  induction l with
  | nil =>
    intro wm t ht
    cases ht
  | cons t0 rest ih =>
    intro wm t ht
    rw [expandLoop_eq] at ht
    cases hf : mapFind? wm t0.1 with
    | some well =>
      rw [hf] at ht
      rcases List.mem_append.mp ht with hadd | hrec
      · obtain ⟨m, hm, hmt⟩ := List.mem_map.mp hadd
        have hm2 := List.mem_filter.mp hm
        refine ⟨t0.1, well, mapFind?_eq_some_mem hf, t0, List.mem_cons_self _ _, rfl,
          ?_, ?_, ?_⟩
        · rw [← hmt]
          exact hm2.1
        · rw [← hmt]
          simpa using hm2.2
        · rw [← hmt]
      · obtain ⟨k, w, hkw, t1, ht1, h1, h2, h3, h4⟩ := ih (mapErase wm t0.1) t hrec
        exact ⟨k, w, (mapErase_sublist wm t0.1).subset hkw, t1,
          List.mem_cons_of_mem _ ht1, h1, h2, h3, h4⟩
    | none =>
      rw [hf] at ht
      obtain ⟨k, w, hkw, t1, ht1, h1, h2, h3, h4⟩ := ih wm t ht
      exact ⟨k, w, hkw, t1, List.mem_cons_of_mem _ ht1, h1, h2, h3, h4⟩

theorem mergeLists_length : ∀ xs ys : List (Int × α),
    (mergeLists xs ys).length = xs.length + ys.length := by
  intro xs
  induction xs with
  | nil =>
    intro ys
    cases ys <;> simp [mergeLists]
  | cons x xs ihx =>
    intro ys
    induction ys with
    | nil => simp [mergeLists]
    | cons y ys ihy =>
      simp only [mergeLists]
      by_cases h : tupLT y x
      · rw [if_pos h]
        simp only [List.length_cons, ihy]
        omega
      · rw [if_neg h]
        simp only [List.length_cons, ihx (y :: ys)]
        omega

theorem mergeLists_mem : ∀ (xs ys : List (Int × α)) (z : Int × α),
    z ∈ mergeLists xs ys ↔ z ∈ xs ∨ z ∈ ys := by
  intro xs
  induction xs with
  | nil =>
    intro ys z
    cases ys <;> simp [mergeLists]
  | cons x xs ihx =>
    intro ys
    induction ys with
    | nil =>
      intro z
      simp [mergeLists]
    | cons y ys ihy =>
      intro z
      simp only [mergeLists]
      by_cases h : tupLT y x
      · rw [if_pos h]
        rw [List.mem_cons, ihy z]
        simp [List.mem_cons]
        tauto
      · rw [if_neg h]
        rw [List.mem_cons, ihx (y :: ys) z]
        simp [List.mem_cons]
        tauto

theorem le_of_tupLT {p q : Int × α} (h : tupLT p q = true) : p.1 ≤ q.1 := by
  unfold tupLT at h
  simp only [Bool.or_eq_true, Bool.and_eq_true, decide_eq_true_eq] at h
  rcases h with h | ⟨h, _⟩
  · exact le_of_lt h
  · exact le_of_eq h

theorem le_of_not_tupLT {p q : Int × α} (h : ¬ tupLT p q = true) : q.1 ≤ p.1 := by
  unfold tupLT at h
  simp only [Bool.or_eq_true, Bool.and_eq_true, decide_eq_true_eq] at h
  push_neg at h
  exact h.1

theorem mergeLists_sorted : ∀ xs ys : List (Int × α),
    List.Sorted (@leGid α) xs → List.Sorted (@leGid α) ys →
    List.Sorted (@leGid α) (mergeLists xs ys) := by
  intro xs
  induction xs with
  | nil =>
    intro ys _ hys
    cases ys with
    | nil => simp [mergeLists]
    | cons y ys =>
      simp only [mergeLists]
      exact hys
  | cons x xs ihx =>
    intro ys
    induction ys with
    | nil =>
      intro hxs _
      simp only [mergeLists]
      exact hxs
    | cons y ys ihy =>
      intro hxs hys
      have hxs2 := List.sorted_cons.mp hxs
      have hys2 := List.sorted_cons.mp hys
      simp only [mergeLists]
      by_cases h : tupLT y x
      · rw [if_pos h]
        apply List.sorted_cons.mpr
        constructor
        · intro z hz
          rcases (mergeLists_mem (x :: xs) ys z).mp hz with hzx | hzy
          · rcases List.mem_cons.mp hzx with hq | hq
            · rw [hq]
              exact le_of_tupLT h
            · exact le_trans (le_of_tupLT h) (hxs2.1 z hq)
          · exact hys2.1 z hzy
        · exact ihy hxs hys2.2
      · rw [if_neg h]
        apply List.sorted_cons.mpr
        constructor
        · intro z hz
          rcases (mergeLists_mem xs (y :: ys) z).mp hz with hzx | hzy
          · exact hxs2.1 z hzx
          · rcases List.mem_cons.mp hzy with hq | hq
            · rw [hq]
              exact le_of_not_tupLT h
            · exact le_trans (le_of_not_tupLT h) (hys2.1 z hq)
        · exact ihx (y :: ys) hxs2.2 hys

end ExpandLoopLemmas

open GraphOfGrid in
/-- C1: for a registry of nonempty, duplicate-free wells with distinct
representatives and an input list with at most one tuple per well
representative, `extendImportExportList` (i) grows the list by
`Σ (|well| - 1)` over the wells whose representative occurs among the
input `globalId`s, (ii) adds only tuples that copy a representative's
tuple with the `globalId` replaced by another member of that
representative's well, and (iii) returns a list sorted ascending by
`globalId` whenever the input was. -/
theorem extendImportExportList_spec {α : Type} [LinearOrder α]
    (g : GraphOfGrid) (cellList : List (Int × α))
    (hW1 : ∀ w ∈ g.wells, w ≠ [])
    (hW2 : ∀ w ∈ g.wells, w.Nodup)
    (hW3 : (g.wells.map (fun w => w.headI)).Nodup)
    (_hone : ∀ w ∈ g.wells,
      (cellList.filter (fun t => t.1 == w.headI)).length ≤ 1) :
    (extendImportExportList g cellList).length =
      cellList.length +
        ((g.wells.filter (fun w => (cellList.map Prod.fst).contains w.headI)).map
          (fun w => w.length - 1)).sum ∧
    (∀ t ∈ extendImportExportList g cellList,
      t ∈ cellList ∨ ∃ w ∈ g.wells, ∃ t0 ∈ cellList,
        t0.1 = w.headI ∧ t.1 ∈ w ∧ t.1 ≠ w.headI ∧ t.2 = t0.2) ∧
    (List.Sorted (@leGid α) cellList →
      List.Sorted (@leGid α) (extendImportExportList g cellList)) := by
  have hmapkeys : (g.wells.map (fun w => (w.headI, w))).map Prod.fst =
      g.wells.map (fun w => w.headI) := by
    rw [List.map_map]
    rfl
  have hnd : ((g.wells.map (fun w => (w.headI, w))).map Prod.fst).Nodup := by
    rw [hmapkeys]
    exact hW3
  refine ⟨?_, ?_, ?_⟩
  · show (mergeLists cellList
      (List.insertionSort leGid (expandLoop (buildWellMap g.getWells) cellList))).length = _
    rw [mergeLists_length, List.length_insertionSort]
    show cellList.length + (expandLoop (buildWellMap g.wells) cellList).length = _
    rw [buildWellMap_eq hW3, expandLoop_length cellList _ hnd]
    unfold sumContrib
    rw [List.filter_map]
    rw [List.map_map]
    show cellList.length + ((g.wells.filter
        (fun w => (cellList.map Prod.fst).contains w.headI)).map
        (fun w => (w.filter (fun m => m != w.headI)).length)).sum = _
    have hcongr : (g.wells.filter
          (fun w => (cellList.map Prod.fst).contains w.headI)).map
          (fun w => (w.filter (fun m => m != w.headI)).length) =
        (g.wells.filter
          (fun w => (cellList.map Prod.fst).contains w.headI)).map
          (fun w => w.length - 1) := by
      apply List.map_congr_left
      intro w hw
      have hwW := (List.mem_filter.mp hw).1
      have hmem : w.headI ∈ w := List.head!_mem_self (hW1 w hwW)
      have hfun : (fun m => m != w.headI) = (fun m => decide (m ≠ w.headI)) := by
        funext m
        by_cases hcase : m = w.headI
        · simp [hcase]
        · simp [hcase]
      rw [hfun, length_filter_ne_of_nodup (hW2 w hwW) hmem]
    rw [hcongr]
  · intro t ht
    have ht2 : t ∈ cellList ∨
        t ∈ List.insertionSort leGid (expandLoop (buildWellMap g.getWells) cellList) :=
      (mergeLists_mem _ _ t).mp ht
    rcases ht2 with h | h
    · exact Or.inl h
    · right
      have h2 : t ∈ expandLoop (buildWellMap g.getWells) cellList :=
        (List.mem_insertionSort leGid).mp h
      obtain ⟨k, w, hkw, t0, ht0, h1, hmem, hne, hcopy⟩ :=
        expandLoop_mem cellList _ t h2
      rw [show g.getWells = g.wells from rfl, buildWellMap_eq hW3] at hkw
      obtain ⟨w0, hw0, heq⟩ := List.mem_map.mp hkw
      have hk : w0.headI = k := (Prod.mk.injEq _ _ _ _).mp heq |>.1
      have hw : w0 = w := (Prod.mk.injEq _ _ _ _).mp heq |>.2
      refine ⟨w0, hw0, t0, ht0, ?_, ?_, ?_, hcopy⟩
      · rw [h1, hk]
      · rw [hw]
        exact hmem
      · rw [hk]
        exact hne
  · intro hsor
    show List.Sorted leGid (mergeLists cellList
      (List.insertionSort leGid (expandLoop (buildWellMap g.getWells) cellList)))
    exact mergeLists_sorted _ _ hsor (List.sorted_insertionSort leGid _)

open GraphOfGrid in
/-- Witness for C1 at the two-well registry and a sorted three-tuple
input whose first and third tuples are well representatives. -/
theorem extendImportExportList_spec_witness :
    (∀ w ∈ demoWellGraph.wells, w ≠ []) ∧
    (∀ w ∈ demoWellGraph.wells, w.Nodup) ∧
    (demoWellGraph.wells.map (fun w => w.headI)).Nodup ∧
    (∀ w ∈ demoWellGraph.wells,
      (([((0 : Int), (10 : Int)), (3, 20), (5, 30)]).filter
        (fun t => t.1 == w.headI)).length ≤ 1) ∧
    ((extendImportExportList demoWellGraph
        [((0 : Int), (10 : Int)), (3, 20), (5, 30)]).length =
      ([((0 : Int), (10 : Int)), (3, 20), (5, 30)]).length +
        ((demoWellGraph.wells.filter (fun w =>
          (([((0 : Int), (10 : Int)), (3, 20), (5, 30)]).map Prod.fst).contains
            w.headI)).map (fun w => w.length - 1)).sum ∧
    (∀ t ∈ extendImportExportList demoWellGraph
        [((0 : Int), (10 : Int)), (3, 20), (5, 30)],
      t ∈ [((0 : Int), (10 : Int)), (3, 20), (5, 30)] ∨
        ∃ w ∈ demoWellGraph.wells,
          ∃ t0 ∈ [((0 : Int), (10 : Int)), (3, 20), (5, 30)],
            t0.1 = w.headI ∧ t.1 ∈ w ∧ t.1 ≠ w.headI ∧ t.2 = t0.2) ∧
    (List.Sorted (@leGid Int) [((0 : Int), (10 : Int)), (3, 20), (5, 30)] →
      List.Sorted (@leGid Int) (extendImportExportList demoWellGraph
        [((0 : Int), (10 : Int)), (3, 20), (5, 30)]))) :=
  ⟨by decide, by decide, by decide, by decide,
   extendImportExportList_spec demoWellGraph
     [((0 : Int), (10 : Int)), (3, 20), (5, 30)]
     (by decide) (by decide) (by decide) (by decide)⟩

end OpmVerify
